import Mathlib

/-!
# Verification of the magnet-recovery core of `media-search`

This file gives a shallow embedding, in Lean 4, of the magnet-recovery
pipeline of the `media-search` repository:

* the bencode info-hash extractor (`src/torrent-server/providers/utils.js`,
  `extractMagnetFromTorrentBuffer`),
* the manual redirect walker (`followRedirectsToMagnet`),
* the per-provider resolution caches and in-flight coalescing
  (`src/torrent-server/providers/jackett.js` and `prowlarr.js`,
  `resolveDownloadUrlToMagnet`),
* result normalization (`normalizeResult`) and the search-route
  deduplication/sort step (`src/torrent-server/index.js`).

Modelling conventions:

* JavaScript strings are modelled as `List Char` (abbreviated `Str`);
  byte buffers as `List Nat` with each entry `< 256`.
* `Buffer.toString('latin1')` is the code-point-preserving decoding
  byte `b` ↦ `Char.ofNat b`.
* Node's `crypto.createHash('sha1')` is modelled by an executable SHA-1
  implementation (`sha1hex`) written directly from FIPS 180-1, with all
  32-bit arithmetic taken modulo `2 ^ 32`.
* Network I/O is modelled by an explicit parameter
  `net : Str → Option HttpRes`; `none` models a fetch that throws
  (the per-hop abort timer firing), `some r` a settled HTTP response.
* The JavaScript event loop makes the synchronous prefix of each
  `async` function atomic; the cache/coalescer is therefore modelled as
  a state machine whose steps are the synchronous prefix of a call and
  the (also synchronous) completion callback of a resolution.
-/

set_option maxRecDepth 10000

/-- JavaScript strings, modelled as lists of characters. -/
abbrev Str := List Char

/-- Byte buffers (`Buffer` / `ArrayBuffer`), each entry `< 256`. -/
abbrev Bytes := List Nat

/-- Literal helper: the character list of a Lean string literal. -/
def str (s : String) : Str := s.data

/-! ## SHA-1 (model of Node's `crypto.createHash('sha1')`)

Executable SHA-1 over byte lists, from FIPS 180-1.  All word arithmetic
is `Nat` taken modulo `2 ^ 32`. -/

/-- The 32-bit modulus. -/
def w32 : Nat := 4294967296

/-- Left-rotate a 32-bit word by `k` bits. -/
def rotl (k n : Nat) : Nat :=
  ((n * 2 ^ k) % w32) + (n % w32) / 2 ^ (32 - k) % 2 ^ k

/-- Bitwise complement of a 32-bit word. -/
def not32 (n : Nat) : Nat := (w32 - 1) ^^^ (n % w32)

/-- Big-endian byte expansion of `n` into `k` bytes. -/
def beBytes : Nat → Nat → Bytes
  | 0, _ => []
  | k + 1, n => (n / 2 ^ (8 * k)) % 256 :: beBytes k n

/-- SHA-1 padding: append `0x80`, zeros to 56 mod 64, and the 64-bit
big-endian bit length. -/
def sha1pad (msg : Bytes) : Bytes :=
  let len := msg.length
  let zeros := (64 + 55 - (len % 64)) % 64
  msg ++ 128 :: List.replicate zeros 0 ++ beBytes 8 (8 * len)

/-- Split a list into chunks of 64 (the padded message length is a
multiple of 64, so the fuel `l.length` always suffices). -/
def chunks64 (fuel : Nat) (l : Bytes) : List Bytes :=
  match fuel, l with
  | _, [] => []
  | 0, _ => [l]
  | fuel + 1, l => l.take 64 :: chunks64 fuel (l.drop 64)

/-- Assemble a big-endian 32-bit word from four bytes. -/
def word4 (a b c d : Nat) : Nat := ((a * 256 + b) * 256 + c) * 256 + d

/-- The sixteen initial message-schedule words of a 64-byte chunk. -/
def initWords : Bytes → List Nat
  | a :: b :: c :: d :: rest => word4 a b c d :: initWords rest
  | _ => []

/-- Extend the message schedule by one word. -/
def extendStep (ws : List Nat) : List Nat :=
  let n := ws.length
  ws ++ [rotl 1 ((ws.getD (n - 3) 0 ^^^ ws.getD (n - 8) 0) ^^^
                 (ws.getD (n - 14) 0 ^^^ ws.getD (n - 16) 0))]

/-- Extend the sixteen schedule words to eighty. -/
def extendWords (ws : List Nat) : Nat → List Nat
  | 0 => ws
  | k + 1 => extendWords (extendStep ws) k

/-- The SHA-1 round function. -/
def sha1f (i b c d : Nat) : Nat :=
  if i < 20 then ((b &&& c) ||| (not32 b &&& d)) % w32
  else if i < 40 then (b ^^^ c ^^^ d) % w32
  else if i < 60 then ((b &&& c) ||| (b &&& d) ||| (c &&& d)) % w32
  else (b ^^^ c ^^^ d) % w32

/-- The SHA-1 round constant. -/
def sha1k (i : Nat) : Nat :=
  if i < 20 then 1518500249
  else if i < 40 then 1859775393
  else if i < 60 then 2400959708
  else 3395469782

/-- One SHA-1 round: state `(a, b, c, d, e)`, round index `i`, word `w`. -/
def sha1round (st : Nat × Nat × Nat × Nat × Nat) (iw : Nat × Nat) :
    Nat × Nat × Nat × Nat × Nat :=
  match st, iw with
  | (a, b, c, d, e), (i, w) =>
    let temp := (rotl 5 a + sha1f i b c d + e + sha1k i + w) % w32
    (temp, a, rotl 30 b, c, d)

/-- Process one 64-byte chunk, updating the five hash words. -/
def sha1chunk (h : Nat × Nat × Nat × Nat × Nat) (chunk : Bytes) :
    Nat × Nat × Nat × Nat × Nat :=
  match h with
  | (h0, h1, h2, h3, h4) =>
    let ws := extendWords (initWords chunk) 64
    match ((List.range 80).zip ws).foldl sha1round (h0, h1, h2, h3, h4) with
    | (a, b, c, d, e) =>
      ((h0 + a) % w32, (h1 + b) % w32, (h2 + c) % w32, (h3 + d) % w32,
       (h4 + e) % w32)

/-- The five 32-bit words of the SHA-1 digest of a byte list. -/
def sha1words (msg : Bytes) : Nat × Nat × Nat × Nat × Nat :=
  let padded := sha1pad msg
  (chunks64 padded.length padded).foldl sha1chunk
    (1732584193, 4023233417, 2562383102, 271733878, 3285377520)

/-- One lowercase hexadecimal digit. -/
def hexDigit (n : Nat) : Char :=
  if n < 10 then Char.ofNat (48 + n) else Char.ofNat (87 + n)

/-- `k`-digit lowercase hexadecimal rendering of `n` (big-endian). -/
def hexN : Nat → Nat → Str
  | 0, _ => []
  | k + 1, n => hexDigit ((n / 16 ^ k) % 16) :: hexN k n

/-- 40-character lowercase hexadecimal SHA-1 digest, the model of
`crypto.createHash('sha1').update(buf).digest('hex')`. -/
def sha1hex (msg : Bytes) : Str :=
  match sha1words msg with
  | (h0, h1, h2, h3, h4) =>
    hexN 8 h0 ++ hexN 8 h1 ++ hexN 8 h2 ++ hexN 8 h3 ++ hexN 8 h4


/-! ## String utilities (models of the JavaScript string operations) -/

/-- `'0' <= c && c <= '9'` (the walker's digit test). -/
def isDig (c : Char) : Bool := decide ('0' ≤ c ∧ c ≤ '9')

/-- Numeric value of a decimal digit run (model of `parseInt` on an
all-digit string). -/
def digitsVal (l : Str) : Nat := l.foldl (fun a c => a * 10 + (c.toNat - 48)) 0

/-- Decimal rendering, fuel-indexed so that it is structurally
recursive (and hence kernel-evaluable); any `fuel > n` is enough. -/
def natDecA : Nat → Nat → Str
  | 0, _ => []
  | fuel + 1, n =>
    if n < 10 then [Char.ofNat (48 + n)]
    else natDecA fuel (n / 10) ++ [Char.ofNat (48 + n % 10)]

/-- Decimal rendering of a natural number (ASCII digits). -/
def natDec (n : Nat) : Str := natDecA (n + 1) n

theorem natDecA_fuel (f1 : Nat) : ∀ f2 n, n < f1 → n < f2 → natDecA f1 n = natDecA f2 n := by
  induction f1 with
  | zero => omega
  | succ f1 ih =>
    intro f2 n h1 h2
    match f2 with
    | 0 => omega
    | g + 1 =>
      rw [natDecA, natDecA]
      by_cases hn : n < 10
      · simp [hn]
      · have hrec : n / 10 < n := Nat.div_lt_self (by omega) (by omega)
        rw [if_neg hn, if_neg hn, ih g (n / 10) (by omega) (by omega)]

/-- The recursion equation `natDec` satisfies. -/
theorem natDec_unfold (n : Nat) :
    natDec n = if n < 10 then [Char.ofNat (48 + n)]
               else natDec (n / 10) ++ [Char.ofNat (48 + n % 10)] := by
  show natDecA (n + 1) n = _
  rw [natDecA]
  by_cases hn : n < 10
  · simp [hn]
  · have hrec : n / 10 < n := Nat.div_lt_self (by omega) (by omega)
    rw [if_neg hn, if_neg hn, natDecA_fuel n (n / 10 + 1) (n / 10) (by omega) (by omega)]
    rfl

/-- Model of `String.prototype.indexOf`: index of the first occurrence
of `pat` in `s` (`none` for JavaScript's `-1`). -/
def indexOfSub (s pat : Str) : Option Nat :=
  if pat.isPrefixOf s then some 0
  else
    match s with
    | [] => none
    | _ :: rest => (indexOfSub rest pat).map (· + 1)

/-- Model of `String.prototype.includes`. -/
def includesSub (s pat : Str) : Bool := (indexOfSub s pat).isSome

/-- ASCII lowercasing, the model of `String.prototype.toLowerCase`
(the strings the code lowercases are ASCII). -/
def toLowerS (s : Str) : Str := s.map Char.toLower

/-- The JavaScript `\s` class (the members that can occur in the data
this system handles: ASCII whitespace and NBSP). -/
def jsSpace (c : Char) : Bool :=
  c = ' ' || c = Char.ofNat 9 || c = Char.ofNat 10 || c = Char.ofNat 11 ||
  c = Char.ofNat 12 || c = Char.ofNat 13 || c = Char.ofNat 160

/-- `Buffer.toString('latin1')`: each byte becomes the character with
the same code point. -/
def latin1 (buf : Bytes) : Str := buf.map Char.ofNat

/-! ## The bencode walker and info-hash extractor

Model of `extractMagnetFromTorrentBuffer` in
`src/torrent-server/providers/utils.js` (lines 257-305): the `for` loop
walking the bencode after the `4:info` marker, the `depth !== 0` guard,
the SHA-1 of `buf.slice(infoIdx + 6, i)`, the `4:name(\d+):` lookup and
the final magnet assembly.

The loop state `inStr`/`strLeft` is folded into one `Option Int`
(`some k` = inside a string with counter `k`): the code never reads
`strLeft` while `inStr` is false, and overwrites it when setting
`inStr`, so the fold is observationally exact. -/

/-- Result of the bencode walk: characters consumed from the start
position, final `depth`, and whether the loop exited through the
`--depth === 0` break (in which case the consumed count includes the
closing `e`, matching the `i++` before `break`). -/
structure WalkRes where
  consumed : Nat
  depth : Int
  broke : Bool
  deriving Repr, DecidableEq

/-- Shift a walk result by `n` already-consumed characters. -/
def addC (n : Nat) (r : WalkRes) : WalkRes := ⟨n + r.consumed, r.depth, r.broke⟩

/-- The bencode walk of `utils.js` lines 273-283, fuel-indexed so the
definition is structurally recursive (each loop iteration consumes at
least one character, so fuel `l.length` always suffices). -/
def benWalkA : Nat → Str → Option Int → Int → WalkRes
  | _, [], _, depth => ⟨0, depth, false⟩
  | 0, _ :: _, _, depth => ⟨0, depth, false⟩
  | fuel + 1, _ :: rest, some strLeft, depth =>
    -- `if (inStr) { if (--strLeft <= 0) inStr = false; continue; }`
    addC 1 (benWalkA fuel rest (if strLeft - 1 > 0 then some (strLeft - 1) else none) depth)
  | fuel + 1, c :: rest, none, depth =>
    if isDig c then
      -- scan the digit run; if a ':' follows, enter string-skipping mode
      let run := (c :: rest).takeWhile isDig
      if ((c :: rest).drop run.length).head? = some ':' then
        addC (run.length + 1)
          (benWalkA fuel ((c :: rest).drop (run.length + 1)) (some (digitsVal run)) depth)
      else
        -- digit not starting a string: none of d/l/e apply, move on
        addC 1 (benWalkA fuel rest none depth)
    else if c = 'd' ∨ c = 'l' then addC 1 (benWalkA fuel rest none (depth + 1))
    else if c = 'e' then
      if depth - 1 = 0 then ⟨1, 0, true⟩
      else addC 1 (benWalkA fuel rest none (depth - 1))
    else addC 1 (benWalkA fuel rest none depth)

/-- The bencode walk, over the remaining suffix of the latin1 string. -/
def benWalk (l : Str) (inStr : Option Int) (depth : Int) : WalkRes :=
  benWalkA l.length l inStr depth

theorem benWalkA_nil (f : Nat) (i : Option Int) (d : Int) :
    benWalkA f [] i d = ⟨0, d, false⟩ := by
  cases f <;> rfl

theorem benWalkA_fuel (f1 : Nat) : ∀ f2 l i d, l.length ≤ f1 → l.length ≤ f2 →
    benWalkA f1 l i d = benWalkA f2 l i d := by
  induction f1 with
  | zero =>
    intro f2 l i d h1 _
    have : l = [] := List.length_eq_zero.mp (by omega)
    subst this
    rw [benWalkA_nil, benWalkA_nil]
  | succ f1 ih =>
    intro f2 l i d h1 h2
    match l, f2 with
    | [], _ => rw [benWalkA_nil, benWalkA_nil]
    | c :: rest, g + 1 =>
      have hr1 : rest.length ≤ f1 := by simp at h1; omega
      have hr2 : rest.length ≤ g := by simp at h2; omega
      match i with
      | some k =>
        rw [benWalkA, benWalkA, ih g rest _ d hr1 hr2]
      | none =>
        rw [benWalkA, benWalkA]
        have hdroplen : ∀ m : Nat,
            ((c :: rest).drop (m + 1)).length ≤ f1 ∧ ((c :: rest).drop (m + 1)).length ≤ g := by
          intro m
          simp only [List.length_drop]
          simp at h1 h2 ⊢
          omega
        have erest : ∀ i d, benWalkA f1 rest i d = benWalkA g rest i d :=
          fun i d => ih g rest i d hr1 hr2
        have edrop : ∀ m (i : Option Int) d,
            benWalkA f1 ((c :: rest).drop (m + 1)) i d
              = benWalkA g ((c :: rest).drop (m + 1)) i d :=
          fun m i d => ih g _ i d (hdroplen m).1 (hdroplen m).2
        simp only [erest, edrop]


/-- If the regex `4:name(\d+):` matches at the head of `l`, the declared
length and the matched text.  (Greediness of `\d+` cannot matter: a
shorter digit run would have to be followed by `:`, impossible inside a
digit run.) -/
def nameTokenAt (l : Str) : Option (Nat × Str) :=
  if (str "4:name").isPrefixOf l then
    let run := (l.drop 6).takeWhile isDig
    if run ≠ [] ∧ ((l.drop 6).drop run.length).head? = some ':' then
      some (digitsVal run, str "4:name" ++ run ++ [':'])
    else none
  else none

/-- Leftmost match of `str.match(/4:name(\d+):/)`. -/
def findNameToken : Str → Option (Nat × Str)
  | [] => none
  | c :: rest => ((nameTokenAt (c :: rest)).orElse (fun _ => findNameToken rest))

/-- UTF-8 bytes of a code point. -/
def utf8bytes (n : Nat) : Bytes :=
  if n < 128 then [n]
  else if n < 2048 then [192 + n / 64, 128 + n % 64]
  else if n < 65536 then [224 + n / 4096, 128 + (n / 64) % 64, 128 + n % 64]
  else [240 + n / 262144, 128 + (n / 4096) % 64, 128 + (n / 64) % 64, 128 + n % 64]

/-- One uppercase hexadecimal digit (as `encodeURIComponent` emits). -/
def hexDigitU (n : Nat) : Char :=
  if n < 10 then Char.ofNat (48 + n) else Char.ofNat (55 + n)

/-- Characters `encodeURIComponent` leaves unescaped. -/
def uriUnreserved (c : Char) : Bool :=
  decide (('A' ≤ c ∧ c ≤ 'Z') ∨ ('a' ≤ c ∧ c ≤ 'z') ∨ ('0' ≤ c ∧ c ≤ '9')) ||
  c = '-' || c = '_' || c = '.' || c = '!' || c = '~' || c = '*' ||
  c = Char.ofNat 39 || c = '(' || c = ')'

/-- Model of `encodeURIComponent`. -/
def encodeURIComponent (s : Str) : Str :=
  s.foldr
    (fun c acc =>
      (if uriUnreserved c then [c]
       else (utf8bytes c.toNat).foldr
         (fun b a => '%' :: hexDigitU (b / 16) :: hexDigitU (b % 16) :: a) []) ++ acc)
    []

/-- `extractMagnetFromTorrentBuffer` (utils.js lines 257-305): locate
`4:info`, walk the bencode for the end of the info value, reject when
the walk exhausts the buffer at nonzero depth, SHA-1 the traversed
span, best-effort read the display name, and assemble the magnet. -/
def extractMagnetFromTorrentBuffer (buf : Bytes) : Option Str :=
  let s := latin1 buf
  match indexOfSub s (str "4:info") with
  | none => none
  | some infoIdx =>
    let start := infoIdx + 6
    let r := benWalk (s.drop start) none 0
    if r.depth ≠ 0 then none
    else
      let infoHash := sha1hex ((buf.drop start).take r.consumed)
      let name :=
        match findNameToken s with
        | none => str "Unknown"
        | some (len, matched) =>
          let nameStart := (indexOfSub s matched).getD 0 + matched.length
          (s.drop nameStart).take len
      some (str "magnet:?xt=urn:btih:" ++ infoHash ++ str "&dn=" ++
            encodeURIComponent name)


/-! ## Bencode documents (specification side)

The spec speaks about buffers that *encode a valid bencode dictionary*;
`Bv` and `benc` formalise that vocabulary.  `benGood` is the class of
values on which the walker of `utils.js` is exact: no integer payloads
(the walker treats the `e` terminating `i…e` as a container close) and
no zero-length strings (after `0:` the walker swallows one byte). -/

inductive Bv where
  | int (n : Int)
  | bstr (s : Str)
  | blist (xs : List Bv)
  | bdict (kvs : List (Str × Bv))

mutual

/-- Bencode encoding of a value, as a latin1 string. -/
def benc : Bv → Str
  | .int n => 'i' :: (str (toString n) ++ ['e'])
  | .bstr s => natDec s.length ++ ':' :: s
  | .blist xs => 'l' :: (bencItems xs ++ ['e'])
  | .bdict kvs => 'd' :: (bencKvs kvs ++ ['e'])

/-- Encoding of a list body. -/
def bencItems : List Bv → Str
  | [] => []
  | x :: xs => benc x ++ bencItems xs

/-- Encoding of a dictionary body. -/
def bencKvs : List (Str × Bv) → Str
  | [] => []
  | kv :: kvs => (natDec kv.1.length ++ ':' :: kv.1) ++ (benc kv.2 ++ bencKvs kvs)

end

mutual

/-- Values the walker traverses exactly: integer-free, with all strings
(including dictionary keys) nonempty. -/
def benGood : Bv → Bool
  | .int _ => false
  | .bstr s => decide (s ≠ [])
  | .blist xs => benGoodItems xs
  | .bdict kvs => benGoodKvs kvs

/-- `benGood` on list bodies. -/
def benGoodItems : List Bv → Bool
  | [] => true
  | x :: xs => benGood x && benGoodItems xs

/-- `benGood` on dictionary bodies. -/
def benGoodKvs : List (Str × Bv) → Bool
  | [] => true
  | kv :: kvs => decide (kv.1 ≠ []) && (benGood kv.2 && benGoodKvs kvs)

end

/-- The byte buffer carrying the encoding of a bencode value. -/
def bencB (v : Bv) : Bytes := (benc v).map Char.toNat

/-! ### Decimal rendering facts -/

theorem toNat_digitChar (m : Nat) (h : m < 10) : (Char.ofNat (48 + m)).toNat = 48 + m := by
  interval_cases m <;> decide

theorem isDig_digitChar (m : Nat) (h : m < 10) : isDig (Char.ofNat (48 + m)) = true := by
  interval_cases m <;> decide

theorem natDec_ne_nil (n : Nat) : natDec n ≠ [] := by
  rw [natDec_unfold]
  split <;> simp

theorem natDec_digits (n : Nat) : ∀ c ∈ natDec n, isDig c = true := by
  induction n using Nat.strong_induction_on with
  | _ n ih =>
    rw [natDec_unfold]
    split
    · rename_i h
      intro c hc
      simp at hc
      subst hc
      exact isDig_digitChar n h
    · rename_i h
      intro c hc
      rw [List.mem_append] at hc
      rcases hc with hc | hc
      · exact ih (n / 10) (Nat.div_lt_self (by omega) (by omega)) c hc
      · simp at hc
        subst hc
        exact isDig_digitChar (n % 10) (Nat.mod_lt _ (by omega))

theorem digitsVal_append_one (l : Str) (c : Char) :
    digitsVal (l ++ [c]) = digitsVal l * 10 + (c.toNat - 48) := by
  simp [digitsVal, List.foldl_append]

theorem digitsVal_natDec (n : Nat) : digitsVal (natDec n) = n := by
  induction n using Nat.strong_induction_on with
  | _ n ih =>
    rw [natDec_unfold]
    split
    · rename_i h
      simp [digitsVal, toNat_digitChar n h]
    · rename_i h
      rw [digitsVal_append_one, ih (n / 10) (Nat.div_lt_self (by omega) (by omega)),
        toNat_digitChar (n % 10) (Nat.mod_lt _ (by omega))]
      omega

/-! ### Walker step equations -/

theorem benWalk_nil (i : Option Int) (d : Int) : benWalk [] i d = ⟨0, d, false⟩ := by
  simp only [benWalk]
  rw [benWalkA_nil]

theorem benWalk_inStr (c : Char) (rest : Str) (k d : Int) :
    benWalk (c :: rest) (some k) d
      = addC 1 (benWalk rest (if k - 1 > 0 then some (k - 1) else none) d) := by
  simp only [benWalk, List.length_cons]
  rw [benWalkA]

theorem benWalk_open (c : Char) (rest : Str) (d : Int) (h : c = 'd' ∨ c = 'l') :
    benWalk (c :: rest) none d = addC 1 (benWalk rest none (d + 1)) := by
  simp only [benWalk, List.length_cons]
  rw [benWalkA]
  have hd : isDig c = false := by rcases h with h | h <;> subst h <;> decide
  simp [hd, h]

theorem benWalk_close_brk (rest : Str) (d : Int) (h : d - 1 = 0) :
    benWalk ('e' :: rest) none d = ⟨1, 0, true⟩ := by
  simp only [benWalk, List.length_cons]
  rw [benWalkA]
  simp [show isDig 'e' = false by decide, h]

theorem benWalk_close (rest : Str) (d : Int) (h : ¬d - 1 = 0) :
    benWalk ('e' :: rest) none d = addC 1 (benWalk rest none (d - 1)) := by
  simp only [benWalk, List.length_cons]
  rw [benWalkA]
  simp [show isDig 'e' = false by decide, h]

theorem benWalk_other (c : Char) (rest : Str) (d : Int) (h1 : isDig c = false)
    (h2 : ¬(c = 'd' ∨ c = 'l')) (h3 : ¬c = 'e') :
    benWalk (c :: rest) none d = addC 1 (benWalk rest none d) := by
  simp only [benWalk, List.length_cons]
  rw [benWalkA]
  simp [h1, h2, h3]

theorem benWalk_digit_str (c : Char) (rest : Str) (d : Int) (hc : isDig c = true)
    (hcol : ((c :: rest).drop ((c :: rest).takeWhile isDig).length).head? = some ':') :
    benWalk (c :: rest) none d
      = addC (((c :: rest).takeWhile isDig).length + 1)
          (benWalk ((c :: rest).drop (((c :: rest).takeWhile isDig).length + 1))
            (some (digitsVal ((c :: rest).takeWhile isDig))) d) := by
  simp only [benWalk, List.length_cons]
  rw [benWalkA]
  simp only [hc, if_true, hcol, if_pos rfl]
  rw [benWalkA_fuel rest.length _ _ _ _ (by simp) (le_refl _)]

/-! ### Walker correctness on good bencode values -/

theorem addC_addC (a b : Nat) (r : WalkRes) : addC a (addC b r) = addC (a + b) r := by
  simp [addC]
  omega

theorem addC_zero (r : WalkRes) : addC 0 r = r := by
  simp [addC]

theorem takeWhile_append_stop (p : Char → Bool) (l1 l2 : Str) (x : Char)
    (h1 : ∀ c ∈ l1, p c = true) (hx : p x = false) :
    (l1 ++ x :: l2).takeWhile p = l1 := by
  induction l1 with
  | nil => simp [List.takeWhile, hx]
  | cons c cs ih =>
    simp only [List.cons_append, List.takeWhile]
    rw [h1 c (by simp)]
    simp only [List.cons.injEq, true_and]
    exact ih (fun c hc => h1 c (by simp [hc]))

theorem drop_append_len (l1 l2 : List α) : (l1 ++ l2).drop l1.length = l2 := by
  simp

theorem drop_append_len_succ (l1 l2 : List α) (x : α) :
    (l1 ++ x :: l2).drop (l1.length + 1) = l2 := by
  have : l1 ++ x :: l2 = (l1 ++ [x]) ++ l2 := by simp
  rw [this, show l1.length + 1 = (l1 ++ [x]).length by simp]
  exact drop_append_len _ _

/-- Walking the body of a nonempty string consumes exactly the body,
leaving depth and mode unchanged. -/
theorem walk_skip_body (content : Str) (rest : Str) (d : Int) (k : Int)
    (hk : k = content.length) (hne : content ≠ []) :
    benWalk (content ++ rest) (some k) d = addC content.length (benWalk rest none d) := by
  induction content generalizing k with
  | nil => contradiction
  | cons c cs ih =>
    rw [List.cons_append, benWalk_inStr]
    rcases List.eq_nil_or_concat cs with hcs | _
    · subst hcs
      simp at hk
      subst hk
      simp
    · have hcsne : cs ≠ [] := by
        rename_i hex
        rcases hex with ⟨a, b, hab⟩
        subst hab
        simp
      have hlen : (cs.length : Int) = k - 1 := by
        simp at hk
        omega
      have hpos : k - 1 > 0 := by
        have : 0 < cs.length := List.length_pos.mpr hcsne
        omega
      rw [if_pos hpos, ih (k - 1) hlen.symm hcsne, addC_addC]
      simp [addC]
      omega

/-- Walking a bencoded nonempty string (length prefix, colon, body)
consumes exactly its encoding. -/
theorem walk_bstr (s : Str) (rest : Str) (d : Int) (hne : s ≠ []) :
    benWalk ((natDec s.length ++ ':' :: s) ++ rest) none d
      = addC (natDec s.length ++ ':' :: s).length (benWalk rest none d) := by
  rcases hnd : natDec s.length with _ | ⟨c, cs⟩
  · exact absurd hnd (natDec_ne_nil _)
  · have hall : ∀ x ∈ natDec s.length, isDig x = true := natDec_digits _
    have hc : isDig c = true := hall c (by rw [hnd]; simp)
    have htw : (c :: (cs ++ ':' :: (s ++ rest))).takeWhile isDig = c :: cs := by
      have := takeWhile_append_stop isDig (c :: cs) (s ++ rest) ':'
        (by rw [← hnd]; exact hall) (by decide)
      simpa using this
    have hdropcol : (c :: (cs ++ ':' :: (s ++ rest))).drop ((c :: cs).length : Nat)
        = ':' :: (s ++ rest) := by
      have := drop_append_len (c :: cs) (':' :: (s ++ rest))
      simpa using this
    have hdropbody : (c :: (cs ++ ':' :: (s ++ rest))).drop ((c :: cs).length + 1)
        = s ++ rest := by
      have := drop_append_len_succ (c :: cs) (s ++ rest) ':'
      simpa using this
    simp only [List.append_assoc, List.cons_append]
    rw [benWalk_digit_str c _ d hc (by rw [htw, hdropcol]; simp)]
    rw [htw, hdropbody]
    have hdv : digitsVal (c :: cs) = s.length := by
      rw [← hnd]
      exact digitsVal_natDec _
    rw [hdv, walk_skip_body s rest d s.length rfl hne, addC_addC]
    simp [hnd, addC]
    omega

/-- `walk_bstr` with the list in right-nested (simp-normal) form. -/
theorem walk_bstr2 (s : Str) (rest : Str) (d : Int) (hne : s ≠ []) :
    benWalk (natDec s.length ++ ':' :: (s ++ rest)) none d
      = addC (natDec s.length ++ ':' :: s).length (benWalk rest none d) := by
  have h := walk_bstr s rest d hne
  simp only [List.append_assoc, List.cons_append] at h
  exact h

mutual

/-- Walking the encoding of a good bencode value at depth `≥ 1`
consumes exactly the encoding, leaving the depth unchanged. -/
theorem walk_val (v : Bv) (hg : benGood v = true) (d : Int) (hd : 1 ≤ d) (rest : Str) :
    benWalk (benc v ++ rest) none d = addC (benc v).length (benWalk rest none d) := by
  match v with
  | .int n => simp [benGood] at hg
  | .bstr s =>
    rw [benc]
    exact walk_bstr s rest d (by simpa [benGood] using hg)
  | .blist xs =>
    rw [benc]
    simp only [List.cons_append, List.append_assoc, List.singleton_append, List.nil_append]
    rw [benWalk_open 'l' _ d (by simp), walk_items xs (by simpa [benGood] using hg)
      (d + 1) (by omega) ('e' :: rest)]
    rw [benWalk_close rest (d + 1) (by omega), show d + 1 - 1 = d by omega]
    simp [addC]
    omega
  | .bdict kvs =>
    rw [benc]
    simp only [List.cons_append, List.append_assoc, List.singleton_append, List.nil_append]
    rw [benWalk_open 'd' _ d (by simp), walk_kvs kvs (by simpa [benGood] using hg)
      (d + 1) (by omega) ('e' :: rest)]
    rw [benWalk_close rest (d + 1) (by omega), show d + 1 - 1 = d by omega]
    simp [addC]
    omega

/-- Walking the encoded body of a list of good values at depth `≥ 1`. -/
theorem walk_items (xs : List Bv) (hg : benGoodItems xs = true) (d : Int) (hd : 1 ≤ d)
    (rest : Str) :
    benWalk (bencItems xs ++ rest) none d
      = addC (bencItems xs).length (benWalk rest none d) := by
  match xs with
  | [] => simp [bencItems, addC]
  | x :: xs =>
    rw [bencItems]
    simp only [List.append_assoc]
    rw [walk_val x (by simp [benGoodItems] at hg; exact hg.1) d hd _,
      walk_items xs (by simp [benGoodItems] at hg; exact hg.2) d hd rest, addC_addC]
    simp [addC]

/-- Walking the encoded body of a dictionary with good entries at
depth `≥ 1`. -/
theorem walk_kvs (kvs : List (Str × Bv)) (hg : benGoodKvs kvs = true) (d : Int)
    (hd : 1 ≤ d) (rest : Str) :
    benWalk (bencKvs kvs ++ rest) none d
      = addC (bencKvs kvs).length (benWalk rest none d) := by
  match kvs with
  | [] => simp [bencKvs, addC]
  | kv :: kvs =>
    rw [bencKvs]
    simp only [List.append_assoc, List.cons_append]
    rw [walk_bstr2 kv.1 (benc kv.2 ++ (bencKvs kvs ++ rest)) d
        (by simp [benGoodKvs] at hg; exact hg.1),
      walk_val kv.2 (by simp [benGoodKvs] at hg; exact hg.2.1) d hd _,
      walk_kvs kvs (by simp [benGoodKvs] at hg; exact hg.2.2) d hd rest]
    simp [addC]
    omega

end

/-- Walking the encoding of a good dictionary from depth 0 (the state
at the byte after `4:info`) breaks exactly at the dictionary's closing
`e`, having consumed exactly its encoding. -/
theorem walk_info (ivs : List (Str × Bv)) (hg : benGood (.bdict ivs) = true) (rest : Str) :
    benWalk (benc (.bdict ivs) ++ rest) none 0
      = ⟨(benc (.bdict ivs)).length, 0, true⟩ := by
  rw [benc]
  simp only [List.cons_append, List.append_assoc, List.singleton_append, List.nil_append]
  rw [benWalk_open 'd' _ 0 (by simp), show (0 : Int) + 1 = 1 by omega,
    walk_kvs ivs (by simpa [benGood] using hg) 1 (by omega) ('e' :: rest)]
  rw [benWalk_close_brk rest 1 (by omega)]
  simp [addC]
  omega

/-! ### The extractor hashes exactly the info value's encoding -/

theorem latin1_bencB (v : Bv) : latin1 (bencB v) = benc v := by
  simp [latin1, bencB, List.map_map, Function.comp_def, Char.ofNat_toNat]

theorem bencKvs_append (a b : List (Str × Bv)) :
    bencKvs (a ++ b) = bencKvs a ++ bencKvs b := by
  induction a with
  | nil => simp [bencKvs]
  | cons kv a ih => simp [bencKvs, ih]

/-- The encoded `info` key is the literal marker bytes `4:info`. -/
theorem infoKey_enc : natDec (str "info").length ++ ':' :: str "info" = str "4:info" := by
  decide

/-- Layout of the encoding of a dictionary with an `info` entry. -/
theorem benc_layout (pre post : List (Str × Bv)) (v : Bv) :
    benc (.bdict (pre ++ (str "info", v) :: post))
      = ('d' :: (bencKvs pre ++ str "4:info")) ++ (benc v ++ (bencKvs post ++ ['e'])) := by
  rw [benc, bencKvs_append, bencKvs]
  simp only [← infoKey_enc]
  simp

/-- Where the spec's claims hold: if the first occurrence of the
marker `4:info` is the encoded `info` key itself, and the info value is
a dictionary the walker traverses exactly (`benGood`), then the
extractor returns a magnet whose hash component is the SHA-1 of
exactly the info value's encoded byte span. -/
theorem extract_exact_span (pre post ivs_kvs : List (Str × Bv))
    (hg : benGood (.bdict ivs_kvs) = true)
    (hidx : indexOfSub (benc (.bdict (pre ++ (str "info", Bv.bdict ivs_kvs) :: post)))
        (str "4:info") = some ((bencKvs pre).length + 1)) :
    ∃ dn : Str,
      extractMagnetFromTorrentBuffer
          (bencB (.bdict (pre ++ (str "info", Bv.bdict ivs_kvs) :: post)))
        = some (str "magnet:?xt=urn:btih:" ++ sha1hex (bencB (.bdict ivs_kvs))
            ++ str "&dn=" ++ dn) := by
  have hlay := benc_layout pre post (Bv.bdict ivs_kvs)
  have hheadlen : ('d' :: (bencKvs pre ++ str "4:info")).length
      = (bencKvs pre).length + 1 + 6 := by
    simp [str]
  have hdrop : (benc (.bdict (pre ++ (str "info", Bv.bdict ivs_kvs) :: post))).drop
      ((bencKvs pre).length + 1 + 6)
      = benc (Bv.bdict ivs_kvs) ++ (bencKvs post ++ ['e']) := by
    rw [hlay, ← hheadlen]
    exact List.drop_left _ _
  have hwalk := walk_info ivs_kvs hg (bencKvs post ++ ['e'])
  refine ⟨encodeURIComponent
    (match findNameToken (benc (.bdict (pre ++ (str "info", Bv.bdict ivs_kvs) :: post))) with
     | none => str "Unknown"
     | some (len, matched) =>
       ((benc (.bdict (pre ++ (str "info", Bv.bdict ivs_kvs) :: post))).drop
         ((indexOfSub (benc (.bdict (pre ++ (str "info", Bv.bdict ivs_kvs) :: post)))
            matched).getD 0 + matched.length)).take len), ?_⟩
  rw [extractMagnetFromTorrentBuffer]
  rw [latin1_bencB, hidx]
  simp only [hdrop, hwalk]
  have hspan : ((bencB (.bdict (pre ++ (str "info", Bv.bdict ivs_kvs) :: post))).drop
      ((bencKvs pre).length + 1 + 6)).take (benc (Bv.bdict ivs_kvs)).length
      = bencB (Bv.bdict ivs_kvs) := by
    rw [bencB, ← List.map_drop, hdrop, ← List.map_take, List.take_left]
    rfl
  simp only [ne_eq, not_true_eq_false, if_false, reduceIte, hspan]

/-! ## The redirect walker `followRedirectsToMagnet`

Model of `followRedirectsToMagnet` in `utils.js` (lines 160-251).  The
network is a parameter `net : Str → Option HttpRes`; `net url = none`
models the fetch promise rejecting (the per-hop abort timer), which the
function does not catch, so the whole call rejects (`RunOut.thrown`).
`requests` counts issued fetches. -/

/-- A settled HTTP response as the code reads it: status, the
`location` and `content-type` headers, and the body bytes. -/
structure HttpRes where
  status : Nat
  location : Option Str
  contentType : Option Str
  body : Bytes
  deriving Repr, DecidableEq

/-- Lenient UTF-8 decoding, the model of `buf.toString('utf-8')`
(U+FFFD for malformed bytes; ASCII bytes decode to themselves, which is
all the magnet scraping depends on).  Fuel-indexed: every step consumes
at least one byte, so fuel `l.length` suffices. -/
def utf8DecodeA : Nat → Bytes → Str
  | 0, _ => []
  | _, [] => []
  | fuel + 1, b :: rest =>
    if b < 128 then Char.ofNat b :: utf8DecodeA fuel rest
    else if 192 ≤ b ∧ b < 224 then
      match rest with
      | b2 :: rest2 =>
        if 128 ≤ b2 ∧ b2 < 192 then
          Char.ofNat ((b - 192) * 64 + (b2 - 128)) :: utf8DecodeA fuel rest2
        else Char.ofNat 65533 :: utf8DecodeA fuel rest
      | [] => [Char.ofNat 65533]
    else if 224 ≤ b ∧ b < 240 then
      match rest with
      | b2 :: b3 :: rest3 =>
        if (128 ≤ b2 ∧ b2 < 192) ∧ (128 ≤ b3 ∧ b3 < 192) then
          Char.ofNat ((b - 224) * 4096 + (b2 - 128) * 64 + (b3 - 128)) :: utf8DecodeA fuel rest3
        else Char.ofNat 65533 :: utf8DecodeA fuel rest
      | _ => Char.ofNat 65533 :: utf8DecodeA fuel rest.tail
    else if 240 ≤ b ∧ b < 248 then
      match rest with
      | b2 :: b3 :: b4 :: rest4 =>
        if (128 ≤ b2 ∧ b2 < 192) ∧ (128 ≤ b3 ∧ b3 < 192) ∧ (128 ≤ b4 ∧ b4 < 192) then
          Char.ofNat ((b - 240) * 262144 + (b2 - 128) * 4096 + (b3 - 128) * 64 + (b4 - 128))
            :: utf8DecodeA fuel rest4
        else Char.ofNat 65533 :: utf8DecodeA fuel rest
      | _ => Char.ofNat 65533 :: utf8DecodeA fuel rest.tail
    else Char.ofNat 65533 :: utf8DecodeA fuel rest

/-- `buf.toString('utf-8')`. -/
def utf8Decode (l : Bytes) : Str := utf8DecodeA l.length l

/-- Characters that end a magnet match for the `utils.js` pattern
`/magnet:\?[^\s"'<>]+/`. -/
def magStop (c : Char) : Bool :=
  jsSpace c || c = '"' || c = Char.ofNat 39 || c = '<' || c = '>'

/-- Leftmost match of `text.match(MAGNET_RE)`: the first position where
`magnet:?` is followed by at least one non-excluded character, together
with the greedy run after it. -/
def magScan : Str → Option Str
  | [] => none
  | c :: rest =>
    if (str "magnet:?").isPrefixOf (c :: rest) then
      let run := ((c :: rest).drop 8).takeWhile (fun ch => !magStop ch)
      if run.isEmpty then magScan rest
      else some (str "magnet:?" ++ run)
    else magScan rest

/-- Model of `.replace(/&amp;/gi, '&')`: scan left to right, replacing
each case-insensitive `&amp;` with `&` and resuming after it. -/
def replaceAmp : Str → Str
  | [] => []
  | c :: a :: m :: p :: s :: rest2 =>
    if c = '&' ∧ a.toLower = 'a' ∧ m.toLower = 'm' ∧ p.toLower = 'p' ∧ s = ';' then
      '&' :: replaceAmp rest2
    else c :: replaceAmp (a :: m :: p :: s :: rest2)
  | c :: rest => c :: replaceAmp rest

/-- The `200 OK` body handling of `followRedirectsToMagnet`
(utils.js lines 199-243): torrent parse when the content type or the
leading `d` byte suggests bencode, then the magnet-pattern scrape with
`&amp;` decoding, then the last-resort torrent parse. -/
def handleBody (res : HttpRes) : Option Str :=
  let ct := toLowerS (res.contentType.getD [])
  let buf := res.body
  -- `ct.includes('bittorrent') || ct.includes('octet-stream') ||
  --  (buf.length > 0 && buf[0] === 0x64)`
  let looksLikeTorrent := includesSub ct (str "bittorrent") ||
    includesSub ct (str "octet-stream") || decide (buf.head? = some 100)
  match (if looksLikeTorrent then extractMagnetFromTorrentBuffer buf else none) with
  | some m => some m
  | none =>
    match magScan (utf8Decode buf) with
    | some mtext => some (replaceAmp mtext)
    | none =>
      if !looksLikeTorrent && decide (buf ≠ []) then extractMagnetFromTorrentBuffer buf
      else none

/-- How one resolver call ends: the async function fulfills with a
magnet or `null`, or the uncaught fetch rejection propagates. -/
inductive RunOut where
  | value (m : Option Str)
  | thrown
  deriving Repr, DecidableEq

/-- Outcome of a `followRedirectsToMagnet` call plus the number of
network requests it issued. -/
structure RunRes where
  out : RunOut
  requests : Nat
  deriving Repr, DecidableEq

/-- The hop loop (utils.js lines 163-248), structurally recursive on
the remaining hop budget. -/
def followAux (net : Str → Option HttpRes) : Nat → Str → Nat → RunRes
  | 0, _, cnt => ⟨.value none, cnt⟩
  | hops + 1, url, cnt =>
    if (str "magnet:").isPrefixOf url then ⟨.value (some url), cnt⟩
    else
      match net url with
      | none => ⟨.thrown, cnt + 1⟩
      | some res =>
        if 300 ≤ res.status ∧ res.status < 400 then
          match res.location with
          | none => ⟨.value none, cnt + 1⟩
          | some loc => followAux net hops loc (cnt + 1)
        else if 200 ≤ res.status ∧ res.status < 300 then
          ⟨.value (handleBody res), cnt + 1⟩
        else ⟨.value none, cnt + 1⟩

/-- `followRedirectsToMagnet(startUrl, { maxHops = 12 })`. -/
def followRedirectsToMagnet (net : Str → Option HttpRes) (startUrl : Str)
    (maxHops : Nat := 12) : RunRes :=
  followAux net maxHops startUrl 0

/-! ### Redirect-chain behaviour (hop and request counting) -/

theorem followAux_chain (net : Str → Option HttpRes) :
    ∀ (k : Nat) (chain : Nat → Str) (hops cnt : Nat), k < hops →
    (∀ i, i < k → (str "magnet:").isPrefixOf (chain i) = false) →
    (∀ i, i < k → ∃ r, net (chain i) = some r ∧ 300 ≤ r.status ∧ r.status < 400 ∧
        r.location = some (chain (i + 1))) →
    (str "magnet:").isPrefixOf (chain k) = true →
    followAux net hops (chain 0) cnt = ⟨.value (some (chain k)), cnt + k⟩ := by
  intro k
  induction k with
  | zero =>
    intro chain hops cnt hk _ _ hmag
    match hops with
    | h + 1 =>
      rw [followAux]
      simp [hmag]
  | succ k ih =>
    intro chain hops cnt hk hnm hnet hmag
    match hops with
    | h + 1 =>
      obtain ⟨r, hr, hs1, hs2, hloc⟩ := hnet 0 (by omega)
      rw [followAux]
      simp only [hnm 0 (by omega), Bool.false_eq_true, if_false, hr, hloc,
        if_pos (And.intro hs1 hs2)]
      have := ih (fun i => chain (i + 1)) h (cnt + 1) (by omega)
        (fun i hi => hnm (i + 1) (by omega))
        (fun i hi => hnet (i + 1) (by omega)) hmag
      rw [this]
      simp
      omega

theorem followAux_endless (net : Str → Option HttpRes) :
    ∀ (hops : Nat) (chain : Nat → Str) (cnt : Nat),
    (∀ i, (str "magnet:").isPrefixOf (chain i) = false) →
    (∀ i, ∃ r, net (chain i) = some r ∧ 300 ≤ r.status ∧ r.status < 400 ∧
        r.location = some (chain (i + 1))) →
    followAux net hops (chain 0) cnt = ⟨.value none, cnt + hops⟩ := by
  intro hops
  induction hops with
  | zero =>
    intro chain cnt _ _
    rw [followAux]
    simp
  | succ h ih =>
    intro chain cnt hnm hnet
    obtain ⟨r, hr, hs1, hs2, hloc⟩ := hnet 0
    rw [followAux]
    simp only [hnm 0, Bool.false_eq_true, if_false, hr, hloc,
      if_pos (And.intro hs1 hs2)]
    have := ih (fun i => chain (i + 1)) (cnt + 1) (fun i => hnm (i + 1))
      (fun i => hnet (i + 1))
    rw [this]
    simp
    omega

/-! ### The magnet-prefix invariant -/

theorem isPrefixOf_append_left (p l1 l2 : Str) (h : p.isPrefixOf l1 = true) :
    p.isPrefixOf (l1 ++ l2) = true := by
  rw [List.isPrefixOf_iff_prefix] at h ⊢
  exact h.trans (List.prefix_append l1 l2)

/-- The extractor returns `none` or a string of the assembled magnet
shape. -/
theorem extract_shape (buf : Bytes) :
    extractMagnetFromTorrentBuffer buf = none ∨
    ∃ hsh dn, extractMagnetFromTorrentBuffer buf
        = some (str "magnet:?xt=urn:btih:" ++ hsh ++ str "&dn=" ++ dn) := by
  rw [extractMagnetFromTorrentBuffer]
  split
  · exact Or.inl rfl
  · simp only []
    split
    · exact Or.inl rfl
    · exact Or.inr ⟨_, _, rfl⟩

/-- Whatever the extractor returns starts with `magnet:`. -/
theorem extract_starts_magnet (buf : Bytes) (m : Str)
    (h : extractMagnetFromTorrentBuffer buf = some m) :
    (str "magnet:").isPrefixOf m = true := by
  rcases extract_shape buf with hs | ⟨hsh, dn, hs⟩
  · rw [h] at hs
    cases hs
  · rw [h] at hs
    injection hs with hs
    subst hs
    simp only [List.append_assoc]
    exact isPrefixOf_append_left _ _ _ (by decide)

/-- A successful regex scrape is `magnet:?` plus a nonempty run. -/
theorem magScan_shape (t m : Str) (h : magScan t = some m) :
    ∃ run : Str, m = str "magnet:?" ++ run := by
  induction t with
  | nil => simp [magScan] at h
  | cons c rest ih =>
    rw [magScan] at h
    by_cases hp : (str "magnet:?").isPrefixOf (c :: rest) = true
    · simp only [hp, if_true] at h
      by_cases hrun : (((c :: rest).drop 8).takeWhile (fun ch => !magStop ch)).isEmpty = true
      · rw [if_pos hrun] at h
        exact ih h
      · rw [if_neg hrun] at h
        exact ⟨_, (Option.some.injEq _ _ ▸ h).symm⟩
    · simp only [Bool.not_eq_true] at hp
      rw [hp] at h
      simp only [Bool.false_eq_true, if_false] at h
      exact ih h

theorem replaceAmp_cons_ne (c : Char) (t : Str) (hc : ¬c = '&') :
    replaceAmp (c :: t) = c :: replaceAmp t := by
  match t with
  | [] => rfl
  | [a] => rfl
  | [a, b] => rfl
  | [a, b, d] => rfl
  | a :: b :: d :: e :: r =>
    rw [replaceAmp]
    simp [hc]

theorem replaceAmp_clean_head (l1 l2 : Str) (h : ∀ c ∈ l1, ¬c = '&') :
    replaceAmp (l1 ++ l2) = l1 ++ replaceAmp l2 := by
  induction l1 with
  | nil => simp
  | cons c cs ih =>
    rw [List.cons_append, replaceAmp_cons_ne c _ (h c (by simp)),
      ih (fun x hx => h x (by simp [hx]))]
    rfl

/-- The body scrape (match plus entity decoding) yields a
`magnet:`-prefixed string. -/
theorem scrape_starts_magnet (t m : Str) (h : magScan t = some m) :
    (str "magnet:").isPrefixOf (replaceAmp m) = true := by
  obtain ⟨run, hrun⟩ := magScan_shape t m h
  subst hrun
  rw [replaceAmp_clean_head (str "magnet:?") run (by decide)]
  exact isPrefixOf_append_left _ _ _ (by decide)

/-- Everything `handleBody` returns starts with `magnet:`. -/
theorem handleBody_starts_magnet (res : HttpRes) (m : Str)
    (h : handleBody res = some m) : (str "magnet:").isPrefixOf m = true := by
  rw [handleBody] at h
  rcases h1 : (if (includesSub (toLowerS (res.contentType.getD [])) (str "bittorrent") ||
      includesSub (toLowerS (res.contentType.getD [])) (str "octet-stream") ||
      decide (res.body.head? = some 100)) = true
    then extractMagnetFromTorrentBuffer res.body else none) with _ | m1
  · rw [h1] at h
    rcases h2 : magScan (utf8Decode res.body) with _ | mtext
    · rw [h2] at h
      by_cases h3 : (!(includesSub (toLowerS (res.contentType.getD [])) (str "bittorrent") ||
          includesSub (toLowerS (res.contentType.getD [])) (str "octet-stream") ||
          decide (res.body.head? = some 100)) && decide (res.body ≠ [])) = true
      · rw [if_pos h3] at h
        exact extract_starts_magnet _ _ h
      · rw [if_neg h3] at h
        cases h
    · rw [h2] at h
      simp only [Option.some.injEq] at h
      subst h
      exact scrape_starts_magnet _ _ h2
  · rw [h1] at h
    simp only [Option.some.injEq] at h
    subst h
    split at h1
    · exact extract_starts_magnet _ _ h1
    · cases h1

/-- C10 core: every non-null value out of the hop loop starts with
`magnet:`. -/
theorem followAux_starts_magnet (net : Str → Option HttpRes) :
    ∀ (hops : Nat) (url : Str) (cnt : Nat) (m : Str),
    (followAux net hops url cnt).out = .value (some m) →
    (str "magnet:").isPrefixOf m = true := by
  intro hops
  induction hops with
  | zero =>
    intro url cnt m h
    rw [followAux] at h
    cases h
  | succ h ih =>
    intro url cnt m hm
    rw [followAux] at hm
    by_cases hmag : (str "magnet:").isPrefixOf url = true
    · simp only [hmag, if_true] at hm
      cases hm
      exact hmag
    · simp only [Bool.not_eq_true] at hmag
      rw [hmag] at hm
      simp only [Bool.false_eq_true, if_false] at hm
      rcases hnet : net url with _ | res
      · rw [hnet] at hm
        cases hm
      · rw [hnet] at hm
        simp only [] at hm
        by_cases hred : 300 ≤ res.status ∧ res.status < 400
        · rw [if_pos hred] at hm
          rcases hloc : res.location with _ | loc
          · rw [hloc] at hm
            cases hm
          · rw [hloc] at hm
            exact ih loc (cnt + 1) m hm
        · rw [if_neg hred] at hm
          by_cases hok : 200 ≤ res.status ∧ res.status < 300
          · rw [if_pos hok] at hm
            simp only [RunOut.value.injEq] at hm
            exact handleBody_starts_magnet res m (by
              cases hb : handleBody res with
              | none => rw [hb] at hm; cases hm
              | some mv => rw [hb] at hm; cases hm; rfl)
          · rw [if_neg hok] at hm
            cases hm

/-! ## Resolution cache and in-flight coalescing

`resolveDownloadUrlToMagnet` in `jackett.js` (lines 216-255) and
`prowlarr.js` (lines 275-297).  On the Node event loop the code from
function entry up to the first `await` runs atomically; for Jackett
that synchronous prefix is: cache lookup, in-flight lookup, start of
`followRedirectsToMagnet`, registration in `inFlight`.  The completion
callbacks (`.then`/`.catch` bodies) are likewise synchronous.  A call's
synchronous prefix and a resolution's completion are therefore the two
atomic steps of the model. -/

/-- First-match association lookup (the `Map.get` / `LRUCache.get` of
the model; a missing key is JavaScript's `undefined`). -/
def lookupA {α : Type} : List (Str × α) → Str → Option α
  | [], _ => none
  | (k, v) :: rest, key => if k = key then some v else lookupA rest key

/-- `Map.set` semantics: replace in place, else append (insertion
order preserved). -/
def setA {α : Type} : List (Str × α) → Str → α → List (Str × α)
  | [], key, v => [(key, v)]
  | (k, w) :: rest, key, v =>
    if k = key then (k, v) :: rest else (k, w) :: setA rest key v

/-- Shared mutable state of one provider module: the magnet cache
(value `none` is a cached `null`), the in-flight key set, and a counter
of `followRedirectsToMagnet` invocations started. -/
structure ResolverState where
  cache : List (Str × Option Str)
  inFlight : List Str
  started : Nat
  deriving Repr, DecidableEq

/-- What the synchronous prefix of one resolver call does. -/
inductive CallStep where
  | cacheHit (v : Option Str)
  | joined
  | launched
  deriving Repr, DecidableEq

/-- How a started resolution settles: fulfilled with magnet-or-null,
or rejected with an error message. -/
inductive ROutcome where
  | value (m : Option Str)
  | thrown (msg : Str)
  deriving Repr, DecidableEq

/-- Bridge from a `followRedirectsToMagnet` run to the outcome its
caller observes (`msg` is the rejection's `e.message`). -/
def runToOutcome (r : RunRes) (msg : Str) : ROutcome :=
  match r.out with
  | .value m => .value m
  | .thrown => .thrown msg

namespace Jackett

/-- Synchronous prefix of `resolveDownloadUrlToMagnet` (jackett.js
lines 217-254): cache hit, join of the in-flight promise, or start of
a new resolution registered in `inFlight`. -/
def resolveDownloadUrlToMagnet (st : ResolverState) (url : Str) :
    CallStep × ResolverState :=
  match lookupA st.cache url with
  | some v => (.cacheHit v, st)
  | none =>
    if st.inFlight.contains url then (.joined, st)
    else (.launched, ⟨st.cache, url :: st.inFlight, st.started + 1⟩)

/-- The `.catch` handler's timeout test:
`e.message.toLowerCase().includes('abort') || ...includes('timeout')`. -/
def isTimeoutMsg (msg : Str) : Bool :=
  includesSub (toLowerS msg) (str "abort") || includesSub (toLowerS msg) (str "timeout")

/-- Completion of a resolution (the `.then`/`.catch` bodies, jackett.js
lines 233-251): cache the value (success or definitive `null`), but
after a timeout/abort rejection cache nothing; always drop the
in-flight entry. -/
def resolveComplete (st : ResolverState) (url : Str) (out : ROutcome) : ResolverState :=
  match out with
  | .value m => ⟨setA st.cache url m, st.inFlight.erase url, st.started⟩
  | .thrown msg =>
    if isTimeoutMsg msg then ⟨st.cache, st.inFlight.erase url, st.started⟩
    else ⟨setA st.cache url none, st.inFlight.erase url, st.started⟩

end Jackett

namespace Prowlarr

/-- Synchronous prefix of `resolveDownloadUrlToMagnet` (prowlarr.js
lines 275-284): cache hit or start of a new resolution — there is no
in-flight map in this module. -/
def resolveDownloadUrlToMagnet (st : ResolverState) (url : Str) :
    CallStep × ResolverState :=
  match lookupA st.cache url with
  | some v => (.cacheHit v, st)
  | none => (.launched, ⟨st.cache, st.inFlight, st.started + 1⟩)

/-- Completion (prowlarr.js lines 284-296): `magnetCache.set(url,
magnet)` on fulfilment — even when `magnet` is `null` — and
`magnetCache.set(url, null)` in the `catch`, regardless of the error. -/
def resolveComplete (st : ResolverState) (url : Str) (out : ROutcome) : ResolverState :=
  match out with
  | .value m => ⟨setA st.cache url m, st.inFlight, st.started⟩
  | .thrown _ => ⟨setA st.cache url none, st.inFlight, st.started⟩

end Prowlarr

/-- `n` back-to-back synchronous call prefixes for the same URL (the
event-loop serialization of `n` concurrent callers). -/
def iterCalls (call : ResolverState → Str → CallStep × ResolverState) :
    Nat → ResolverState → Str → List CallStep × ResolverState
  | 0, st, _ => ([], st)
  | n + 1, st, url =>
    let p := call st url
    let q := iterCalls call n p.2 url
    (p.1 :: q.1, q.2)

/-! ## Result normalization and the search-route aggregation -/

/-- `replace(/\s+/g, " ")`, fuel-indexed (each step consumes at least
one character). -/
def collapseWsA : Nat → Str → Str
  | 0, _ => []
  | _, [] => []
  | fuel + 1, c :: rest =>
    if jsSpace c then ' ' :: collapseWsA fuel (rest.dropWhile jsSpace)
    else c :: collapseWsA fuel rest

/-- `replace(/\s+/g, " ")`. -/
def collapseWs (s : Str) : Str := collapseWsA s.length s

/-- `replace(/\[.*?\]|\(.*?\)/g, "")`, fuel-indexed.  (`.` does not
match line terminators, but this function is only applied after
whitespace collapsing, which has removed them.) -/
def stripBracketsA : Nat → Str → Str
  | 0, _ => []
  | _, [] => []
  | fuel + 1, c :: rest =>
    if c = '[' ∧ rest.contains ']' then
      stripBracketsA fuel ((rest.dropWhile (fun d => !decide (d = ']'))).tail)
    else if c = '(' ∧ rest.contains ')' then
      stripBracketsA fuel ((rest.dropWhile (fun d => !decide (d = ')'))).tail)
    else c :: stripBracketsA fuel rest

/-- `replace(/\[.*?\]|\(.*?\)/g, "")`: drop each lazily-matched
bracketed or parenthesized segment. -/
def stripBrackets (s : Str) : Str := stripBracketsA s.length s

/-- `String.prototype.trim`. -/
def trimS (s : Str) : Str :=
  ((s.dropWhile jsSpace).reverse.dropWhile jsSpace).reverse

/-- The `normTitle` computation of `normalizeResult` (identical in
jackett.js lines 260-268 and prowlarr.js lines 302-310):
`title.toLowerCase().replace(/\s+/g," ").replace(/\[.*?\]|\(.*?\)/g,"").trim()`. -/
def normTitleOf (title : Str) : Str :=
  trimS (stripBrackets (collapseWs (toLowerS title)))

/-- A normalized search result (the object built by the providers'
`search` and `normalizeResult`). -/
structure SearchResult where
  title : Str
  size : Int
  seeders : Option Int
  leechers : Option Int
  tracker : Str
  published : Str
  magnet : Option Str
  link : Option Str
  normTitle : Str
  deriving Repr, DecidableEq

/-- `normalizeResult`: attach `normTitle` derived from `title`. -/
def normalizeResult (r : SearchResult) : SearchResult :=
  { r with normTitle := normTitleOf r.title }

/-- `(r.seeders ?? 0)`. -/
def seedersD (r : SearchResult) : Int := r.seeders.getD 0

/-- The dedup key `` `${r.normTitle}|${r.size}` `` of index.js line 132. -/
def dedupKey (r : SearchResult) : Str := r.normTitle ++ '|' :: str (toString r.size)

/-- One iteration of the dedup loop (index.js lines 131-135). -/
def dedupStep (m : List (Str × SearchResult)) (r : SearchResult) :
    List (Str × SearchResult) :=
  match lookupA m (dedupKey r) with
  | none => m ++ [(dedupKey r, r)]
  | some b => if seedersD b < seedersD r then setA m (dedupKey r) r else m

/-- The dedup `Map` after the loop. -/
def dedupeResults (rs : List SearchResult) : List (Str × SearchResult) :=
  rs.foldl dedupStep []

/-- The sort order of index.js line 136:
`(a, b) => (b.seeders ?? 0) - (a.seeders ?? 0)` (descending seeders). -/
def seedOrder (a b : SearchResult) : Prop := seedersD b ≤ seedersD a

instance : DecidableRel seedOrder := fun _ _ => Int.decLe _ _

instance : IsTotal SearchResult seedOrder :=
  ⟨fun a b => (Int.le_total (seedersD b) (seedersD a)).elim Or.inl Or.inr⟩

instance : IsTrans SearchResult seedOrder :=
  ⟨fun _ _ _ h1 h2 => le_trans h2 h1⟩

/-- The aggregation of `/api/search` (index.js lines 130-136):
dedupe by `(normTitle, size)` keeping highest seeders, then sort the
map's values descending by seeders. -/
def aggregateResults (rs : List SearchResult) : List SearchResult :=
  List.insertionSort seedOrder ((dedupeResults rs).map Prod.snd)

/-- Per-group pick: first element, replaced only by a strictly higher
seeder count (the `else if` of index.js line 134). -/
def pickBest (acc : Option SearchResult) (r : SearchResult) : Option SearchResult :=
  match acc with
  | none => some r
  | some b => if seedersD b < seedersD r then some r else some b

/-- Specification-side description of one group's survivor: fold the
group (in first-seen order) with `pickBest`. -/
def groupBest (rs : List SearchResult) (k : Str) : Option SearchResult :=
  (rs.filter (fun r => decide (dedupKey r = k))).foldl pickBest none

/-! ### Aggregation lemmas -/

theorem lookupA_setA_self {α : Type} (m : List (Str × α)) (k : Str) (v : α) :
    lookupA (setA m k v) k = some v := by
  induction m with
  | nil => simp [setA, lookupA]
  | cons kv rest ih =>
    rw [setA]
    by_cases h : kv.1 = k
    · rw [if_pos h, lookupA, if_pos h]
    · rw [if_neg h, lookupA, if_neg h]
      exact ih

theorem lookupA_setA_other {α : Type} (m : List (Str × α)) (k k' : Str) (v : α)
    (h : ¬k = k') : lookupA (setA m k v) k' = lookupA m k' := by
  induction m with
  | nil => simp [setA, lookupA, h]
  | cons kv rest ih =>
    rw [setA]
    by_cases hk : kv.1 = k
    · rw [if_pos hk, lookupA, lookupA]
      have : ¬kv.1 = k' := by rw [hk]; exact h
      rw [if_neg this, if_neg this]
    · rw [if_neg hk, lookupA, lookupA]
      by_cases hk' : kv.1 = k'
      · rw [if_pos hk', if_pos hk']
      · rw [if_neg hk', if_neg hk']
        exact ih

theorem lookupA_append_single {α : Type} (m : List (Str × α)) (k k' : Str) (v : α)
    (hm : lookupA m k' = none) :
    lookupA (m ++ [(k, v)]) k' = if k = k' then some v else none := by
  induction m with
  | nil => simp [lookupA]
  | cons kv rest ih =>
    rw [lookupA] at hm
    by_cases hk : kv.1 = k'
    · rw [if_pos hk] at hm
      cases hm
    · rw [if_neg hk] at hm
      rw [List.cons_append, lookupA, if_neg hk]
      exact ih hm

theorem lookupA_append_some {α : Type} (m tail : List (Str × α)) (k : Str) (v : α)
    (hm : lookupA m k = some v) : lookupA (m ++ tail) k = some v := by
  induction m with
  | nil => cases hm
  | cons kv rest ih =>
    rw [lookupA] at hm
    rw [List.cons_append, lookupA]
    by_cases hk : kv.1 = k
    · rw [if_pos hk] at hm ⊢
      exact hm
    · rw [if_neg hk] at hm ⊢
      exact ih hm

/-- One dedup-loop iteration, seen through lookups. -/
theorem lookupA_dedupStep (m : List (Str × SearchResult)) (r : SearchResult) (k : Str) :
    lookupA (dedupStep m r) k =
      if dedupKey r = k then pickBest (lookupA m k) r else lookupA m k := by
  rcases hm : lookupA m (dedupKey r) with _ | b
  · have hred : dedupStep m r = m ++ [(dedupKey r, r)] := by
      rw [dedupStep, hm]
    rw [hred]
    by_cases hk : dedupKey r = k
    · subst hk
      rw [lookupA_append_single m _ _ r hm, if_pos rfl, if_pos rfl, hm, pickBest]
    · rw [if_neg hk]
      rcases hmk : lookupA m k with _ | w
      · rw [lookupA_append_single m _ k r hmk, if_neg hk]
      · exact lookupA_append_some m _ k w hmk
  · have hred : dedupStep m r
        = if seedersD b < seedersD r then setA m (dedupKey r) r else m := by
      rw [dedupStep, hm]
    rw [hred]
    by_cases hk : dedupKey r = k
    · subst hk
      rw [hm, pickBest]
      by_cases hlt : seedersD b < seedersD r
      · rw [if_pos hlt, if_pos rfl, if_pos hlt, lookupA_setA_self]
      · rw [if_neg hlt, if_pos rfl, if_neg hlt, hm]
    · rw [if_neg hk]
      by_cases hlt : seedersD b < seedersD r
      · rw [if_pos hlt, lookupA_setA_other m _ k r hk]
      · rw [if_neg hlt]

/-- The dedup map agrees pointwise with the per-group fold. -/
theorem lookupA_dedupe (rs : List SearchResult) (k : Str) :
    lookupA (dedupeResults rs) k = groupBest rs k := by
  induction rs using List.reverseRecOn with
  | nil => simp [dedupeResults, groupBest, lookupA]
  | append_singleton rs r ih =>
    rw [dedupeResults, List.foldl_append]
    show lookupA (dedupStep (dedupeResults rs) r) k = _
    rw [lookupA_dedupStep, groupBest, List.filter_append, List.foldl_append]
    by_cases hk : dedupKey r = k
    · rw [if_pos hk, ih]
      simp only [List.filter_cons, List.filter_nil, hk, decide_True, if_pos rfl, List.foldl]
      rfl
    · rw [if_neg hk, ih]
      simp only [List.filter_cons, List.filter_nil, decide_eq_true_eq, hk, if_false, List.foldl]
      rfl

/-- The per-group fold yields `none` exactly on the empty group. -/
theorem groupFold_none_iff (g : List SearchResult) :
    g.foldl pickBest none = none ↔ g = [] := by
  induction g using List.reverseRecOn with
  | nil => simp
  | append_singleton g r ih =>
    rw [List.foldl_append]
    constructor
    · intro h
      exfalso
      rcases hg : g.foldl pickBest none with _ | b
      · rw [hg] at h
        simp [List.foldl, pickBest] at h
      · rw [hg] at h
        rw [List.foldl, pickBest] at h
        split at h <;> cases h
    · intro h
      simp at h

/-- First-max characterization of the group survivor: it attains the
maximum seeder count, and every earlier group member is strictly
below it (ties keep the first-seen member). -/
theorem groupFold_first_max (g : List SearchResult) (rep : SearchResult)
    (h : g.foldl pickBest none = some rep) :
    ∃ g1 g2, g = g1 ++ rep :: g2 ∧ (∀ x ∈ g1, seedersD x < seedersD rep) ∧
      (∀ x ∈ g2, seedersD x ≤ seedersD rep) := by
  induction g using List.reverseRecOn generalizing rep with
  | nil => cases h
  | append_singleton g r ih =>
    rw [List.foldl_append, List.foldl] at h
    rcases hg : g.foldl pickBest none with _ | b
    · rw [hg] at h
      have hgnil : g = [] := (groupFold_none_iff g).mp hg
      subst hgnil
      rw [List.foldl, pickBest] at h
      injection h with h
      subst h
      exact ⟨[], [], by simp, by simp, by simp⟩
    · rw [hg, List.foldl, pickBest] at h
      obtain ⟨g1, g2, hdec, hlt, hle⟩ := ih b hg
      by_cases hcmp : seedersD b < seedersD r
      · rw [if_pos hcmp] at h
        injection h with h
        subst h
        refine ⟨g, [], by simp, ?_, by simp⟩
        intro x hx
        rw [hdec] at hx
        rcases List.mem_append.mp hx with hx | hx
        · exact lt_trans (hlt x hx) hcmp
        · rcases List.mem_cons.mp hx with hx | hx
          · subst hx
            exact hcmp
          · exact lt_of_le_of_lt (hle x hx) hcmp
      · rw [if_neg hcmp] at h
        injection h with h
        subst h
        refine ⟨g1, g2 ++ [r], by rw [hdec]; simp, hlt, ?_⟩
        intro x hx
        rcases List.mem_append.mp hx with hx | hx
        · exact hle x hx
        · rcases List.mem_singleton.mp hx with hx
          subst hx
          omega

/-! ## Claim theorems -/

/-- The byte span between the marker and the true end of the info
value, for the C1 failing input `d4:infod6:lengthi5eee`. -/
def c1buf : Bytes := (str "d4:infod6:lengthi5eee").map Char.toNat

/-- C1: "For every byte buffer that encodes a valid bencode dictionary
containing an `info` key, the extractor returns a magnet URI whose
hash component is the 40-character lowercase hexadecimal SHA-1 digest
of exactly the original byte span of the `info` value — from the byte
immediately after the `4:info` marker through the closing `e` of the
info dictionary inclusive."  The code violates this: its walker treats
the `e` terminating a bencoded integer (`i5e`) as a container close,
so on the valid dictionary `{info: {length: 5}}` it stops one byte
early and hashes `d6:lengthi5e` instead of the info value
`d6:lengthi5ee`; the two digests differ.  (Every real torrent's info
dictionary contains integers, so this is a bug in the code, not an
overreach of the claim.) -/
theorem c1_extractor_hashes_wrong_span_on_integer :
    benc (.bdict [(str "info", .bdict [(str "length", .int 5)])])
      = str "d4:infod6:lengthi5eee"
    ∧ benc (.bdict [(str "length", .int 5)]) = str "d6:lengthi5ee"
    ∧ extractMagnetFromTorrentBuffer c1buf
        = some (str "magnet:?xt=urn:btih:"
            ++ sha1hex ((str "d6:lengthi5e").map Char.toNat)
            ++ str "&dn=" ++ encodeURIComponent (str "Unknown"))
    ∧ sha1hex ((str "d6:lengthi5e").map Char.toNat)
        ≠ sha1hex ((str "d6:lengthi5ee").map Char.toNat) := by
  refine ⟨by decide, by decide, by decide, by decide⟩

/-- C6: "For every truncated or malformed buffer on which the bencode
walk never returns the nesting depth to zero after the `4:info`
marker, the extractor returns null and never raises an exception past
its boundary."  Confirmed: when the walk ends with nonzero depth the
`depth !== 0` guard makes `extractMagnetFromTorrentBuffer` return
`null` (the model is a total function into `Option`, so no exception
escapes). -/
theorem c6_truncated_buffer_yields_null (buf : Bytes) (p : Nat)
    (hidx : indexOfSub (latin1 buf) (str "4:info") = some p)
    (hnz : (benWalk ((latin1 buf).drop (p + 6)) none 0).depth ≠ 0) :
    extractMagnetFromTorrentBuffer buf = none := by
  rw [extractMagnetFromTorrentBuffer, hidx]
  simp only []
  rw [if_pos hnz]

/-- Witness for C6 at the truncated buffer `d4:infod3:foo`. -/
theorem c6_witness :
    extractMagnetFromTorrentBuffer ((str "d4:infod3:foo").map Char.toNat) = none :=
  c6_truncated_buffer_yields_null _ 1 (by decide) (by decide)

/-- The suffix of the buffer starting at the byte after `4:info`. -/
theorem drop_to_info (pre post : List (Str × Bv)) (v : Bv) :
    (benc (.bdict (pre ++ (str "info", v) :: post))).drop ((bencKvs pre).length + 1 + 6)
      = benc v ++ (bencKvs post ++ ['e']) := by
  rw [benc_layout]
  rw [show (bencKvs pre).length + 1 + 6 = ('d' :: (bencKvs pre ++ str "4:info")).length by
    simp [str]]
  exact List.drop_left _ _

/-- C7 counterexample: an info value that does contain a string field
whose bytes are the grammar characters `dle` (skipped verbatim, as
claimed), but whose `length` field is a bencoded integer; the walker
mistakes the integer's `e` for the dictionary close and ends the span
one byte short of the true end of the info dictionary. -/
theorem c7_counterexample :
    benc (.bdict [(str "info",
        .bdict [(str "pieces", .bstr (str "dle")), (str "length", .int 5)])])
      = str "d4:infod6:pieces3:dle6:lengthi5eee"
    ∧ (str "dle").all (fun c => c = 'd' || c = 'l' || c = 'e') = true
    ∧ (benc (.bdict [(str "pieces", .bstr (str "dle")), (str "length", .int 5)])).length = 26
    ∧ (benWalk ((latin1 ((str "d4:infod6:pieces3:dle6:lengthi5eee").map Char.toNat)).drop 7)
        none 0).consumed = 25
    ∧ ¬(benWalk ((latin1 ((str "d4:infod6:pieces3:dle6:lengthi5eee").map Char.toNat)).drop 7)
        none 0).consumed
        = (benc (.bdict [(str "pieces", .bstr (str "dle")), (str "length", .int 5)])).length := by
  refine ⟨by decide, by decide, by decide, by decide, by decide⟩

/-- C7 amended: "For every buffer whose `info` value contains
length-prefixed string fields whose content bytes equal the ASCII
characters `d`, `e`, `l`, or digits-followed-by-colon, the extractor's
remaining-length tracking skips those bytes verbatim and still locates
the correct end of the info dictionary — provided the info value
contains no bencoded integers and no zero-length strings, and the
first occurrence of `4:info` is the info key itself."  The walk breaks
exactly at the true closing `e` of the info dictionary (consuming
exactly its encoding), and the extractor hashes exactly that span. -/
theorem c7_string_tracking_locates_end (pre post ivs_kvs : List (Str × Bv))
    (hg : benGood (.bdict ivs_kvs) = true)
    (htricky : ivs_kvs.any (fun kv => match kv.2 with
        | .bstr s => s.any (fun c => c = 'd' || c = 'l' || c = 'e' || isDig c)
        | _ => false) = true)
    (hidx : indexOfSub (benc (.bdict (pre ++ (str "info", Bv.bdict ivs_kvs) :: post)))
        (str "4:info") = some ((bencKvs pre).length + 1)) :
    benWalk ((latin1 (bencB (.bdict (pre ++ (str "info", Bv.bdict ivs_kvs) :: post)))).drop
        ((bencKvs pre).length + 1 + 6)) none 0
      = ⟨(benc (.bdict ivs_kvs)).length, 0, true⟩
    ∧ ∃ dn : Str,
      extractMagnetFromTorrentBuffer
          (bencB (.bdict (pre ++ (str "info", Bv.bdict ivs_kvs) :: post)))
        = some (str "magnet:?xt=urn:btih:" ++ sha1hex (bencB (.bdict ivs_kvs))
            ++ str "&dn=" ++ dn) := by
  constructor
  · rw [latin1_bencB, drop_to_info]
    exact walk_info ivs_kvs hg _
  · exact extract_exact_span pre post ivs_kvs hg hidx

/-- Witness for C7: the tricky-string info dictionary
`{info: {pieces: "dle"}}` is walked to its exact end. -/
theorem c7_witness :
    benWalk ((latin1 (bencB (.bdict [(str "info",
        Bv.bdict [(str "pieces", Bv.bstr (str "dle"))])]))).drop 7) none 0
      = ⟨(benc (.bdict [(str "pieces", Bv.bstr (str "dle"))])).length, 0, true⟩ := by
  have h := (c7_string_tracking_locates_end [] []
    [(str "pieces", Bv.bstr (str "dle"))] (by decide) (by decide) (by decide)).1
  simpa using h

/-- C4 counterexample chain: twelve HTTP redirect hops whose final
Location is a magnet URI, against the default hop budget of 12. -/
def c4chain (i : Nat) : Str :=
  if i < 12 then str "http://host/r" ++ natDec i else str "magnet:?xt=urn:btih:c4"

/-- The network serving the counterexample chain. -/
def c4net (u : Str) : Option HttpRes :=
  ((List.range 12).find? (fun i => decide (c4chain i = u))).map
    (fun i => ⟨302, some (c4chain (i + 1)), none, []⟩)

/-- C4 counterexample: on a chain of exactly `k = maxHops = 12`
redirects ending in a magnet Location, the loop performs 12 requests
but returns `null` — the magnet check happens at the top of the next
iteration, which never runs — contradicting the claim for
`k = maxHops`. -/
theorem c4_counterexample_chain_of_maxhops :
    ((List.range 12).all fun i =>
        ((str "magnet:").isPrefixOf (c4chain i) == false)
        && (c4net (c4chain i) == some ⟨302, some (c4chain (i + 1)), none, []⟩)) = true
    ∧ (str "magnet:").isPrefixOf (c4chain 12) = true
    ∧ followRedirectsToMagnet c4net (c4chain 0) 12 = ⟨.value none, 12⟩
    ∧ ¬followRedirectsToMagnet c4net (c4chain 0) 12
        = ⟨.value (some (c4chain 12)), 12⟩ := by
  refine ⟨by decide, by decide, by decide, by decide⟩

/-- C4 amended: "For every `k` strictly below the hop budget, `resolve`
started on a chain of exactly `k` HTTP redirects — each a 3xx with a
Location header, the final Location being a magnet URI — performs
exactly `k` network requests and returns that magnet; and on a chain
that keeps redirecting without resolution it performs exactly
`maxHops` requests and returns null."  (At `k = maxHops` the code
returns null after `maxHops` requests instead — see the
counterexample.) -/
theorem c4_redirect_chain_counts :
    (∀ (net : Str → Option HttpRes) (chain : Nat → Str) (maxHops k : Nat),
      k < maxHops →
      (∀ i, i < k → (str "magnet:").isPrefixOf (chain i) = false) →
      (∀ i, i < k → ∃ r, net (chain i) = some r ∧ 300 ≤ r.status ∧ r.status < 400 ∧
          r.location = some (chain (i + 1))) →
      (str "magnet:").isPrefixOf (chain k) = true →
      followRedirectsToMagnet net (chain 0) maxHops = ⟨.value (some (chain k)), k⟩)
    ∧ (∀ (net : Str → Option HttpRes) (chain : Nat → Str) (maxHops : Nat),
      (∀ i, (str "magnet:").isPrefixOf (chain i) = false) →
      (∀ i, ∃ r, net (chain i) = some r ∧ 300 ≤ r.status ∧ r.status < 400 ∧
          r.location = some (chain (i + 1))) →
      followRedirectsToMagnet net (chain 0) maxHops = ⟨.value none, maxHops⟩) := by
  constructor
  · intro net chain maxHops k hk hnm hnet hmag
    have h := followAux_chain net k chain maxHops 0 hk hnm hnet hmag
    rw [followRedirectsToMagnet, h]
    simp
  · intro net chain maxHops hnm hnet
    have h := followAux_endless net maxHops chain 0 hnm hnet
    rw [followRedirectsToMagnet, h]
    simp

/-- Three-hop witness chain for C4. -/
def c4wchain (i : Nat) : Str :=
  if i < 3 then str "http://host/r" ++ natDec i else str "magnet:?xt=urn:btih:w4"

/-- The network serving the witness chain. -/
def c4wnet (u : Str) : Option HttpRes :=
  ((List.range 3).find? (fun i => decide (c4wchain i = u))).map
    (fun i => ⟨301, some (c4wchain (i + 1)), none, []⟩)

/-- An endless-redirect network for the second half of C4: every URL of
the form `h<digits>` redirects to the next one. -/
def c4enet (u : Str) : Option HttpRes :=
  match u with
  | 'h' :: ds => some ⟨307, some ('h' :: natDec (digitsVal ds + 1)), none, []⟩
  | _ => none

/-- The endless chain `h0, h1, h2, …`. -/
def c4echain (i : Nat) : Str := 'h' :: natDec i

/-- Witness for C4: the three-hop chain resolves in exactly 3 requests
under the default budget, and the endless chain exhausts a budget of 5
in exactly 5 requests. -/
theorem c4_witness :
    followRedirectsToMagnet c4wnet (c4wchain 0) 12
      = ⟨.value (some (c4wchain 3)), 3⟩
    ∧ followRedirectsToMagnet c4enet (c4echain 0) 5 = ⟨.value none, 5⟩ := by
  constructor
  · exact c4_redirect_chain_counts.1 c4wnet c4wchain 12 3 (by decide)
      (by decide) (by decide) (by decide)
  · refine c4_redirect_chain_counts.2 c4enet c4echain 5 ?_ ?_
    · intro i
      rw [c4echain]
      rfl
    · intro i
      refine ⟨⟨307, some ('h' :: natDec (digitsVal (natDec i) + 1)), none, []⟩, rfl,
        show (300:Nat) ≤ 307 by omega, show (307:Nat) < 400 by omega, ?_⟩
      rw [digitsVal_natDec]
      rfl

/-- The cache never holds a non-null value that does not start with
`magnet:`. -/
def magnetCacheInv (st : ResolverState) : Prop :=
  ∀ url m, lookupA st.cache url = some (some m) → (str "magnet:").isPrefixOf m = true

theorem lookupA_setA_cases {α : Type} (m : List (Str × α)) (k k' : Str) (v v' : α)
    (h : lookupA (setA m k v) k' = some v') :
    v' = v ∨ lookupA m k' = some v' := by
  by_cases hk : k = k'
  · subst hk
    rw [lookupA_setA_self] at h
    injection h with h
    exact Or.inl h.symm
  · rw [lookupA_setA_other m k k' v hk] at h
    exact Or.inr h

/-- C10: "Every non-null value returned by followRedirectsToMagnet —
and hence by resolveDownloadUrlToMagnet — is a string that begins with
the prefix `magnet:`", whether it came from a magnet-scheme input URL,
a redirect Location, a body match, or a constructed
`magnet:?xt=urn:btih:` URI.  Confirmed: (1) the hop loop's non-null
results all carry the prefix; (2) under the cache invariant a cache
hit with a non-null value carries it, for both providers; (3) both
providers' completion steps, fed the outcome of a
`followRedirectsToMagnet` run, preserve the invariant. -/
theorem c10_returned_magnets_have_scheme :
    (∀ (net : Str → Option HttpRes) (url : Str) (maxHops : Nat) (m : Str),
      (followRedirectsToMagnet net url maxHops).out = .value (some m) →
      (str "magnet:").isPrefixOf m = true)
    ∧ (∀ (st : ResolverState) (url : Str) (m : Str), magnetCacheInv st →
      ((Jackett.resolveDownloadUrlToMagnet st url).1 = .cacheHit (some m) →
        (str "magnet:").isPrefixOf m = true)
      ∧ ((Prowlarr.resolveDownloadUrlToMagnet st url).1 = .cacheHit (some m) →
        (str "magnet:").isPrefixOf m = true))
    ∧ (∀ (st : ResolverState) (url url' : Str) (net : Str → Option HttpRes)
        (maxHops : Nat) (msg : Str), magnetCacheInv st →
      magnetCacheInv (Jackett.resolveComplete st url
        (runToOutcome (followRedirectsToMagnet net url' maxHops) msg))
      ∧ magnetCacheInv (Prowlarr.resolveComplete st url
        (runToOutcome (followRedirectsToMagnet net url' maxHops) msg))) := by
  refine ⟨?_, ?_, ?_⟩
  · intro net url maxHops m h
    exact followAux_starts_magnet net maxHops url 0 m h
  · intro st url m hinv
    constructor
    · intro h
      rw [Jackett.resolveDownloadUrlToMagnet] at h
      rcases hc : lookupA st.cache url with _ | v
      · rw [hc] at h
        simp only [] at h
        split at h <;> cases h
      · rw [hc] at h
        simp only [] at h
        injection h with h
        subst h
        exact hinv url m hc
    · intro h
      rw [Prowlarr.resolveDownloadUrlToMagnet] at h
      rcases hc : lookupA st.cache url with _ | v
      · rw [hc] at h
        cases h
      · rw [hc] at h
        injection h with h
        subst h
        exact hinv url m hc
  · intro st url url' net maxHops msg hinv
    rcases hrun : (followRedirectsToMagnet net url' maxHops).out with m0 | _
    · have hout : runToOutcome (followRedirectsToMagnet net url' maxHops) msg
          = .value m0 := by
        rw [runToOutcome, hrun]
      rw [hout]
      have hval : ∀ mg, m0 = some mg → (str "magnet:").isPrefixOf mg = true := by
        intro mg hmg
        subst hmg
        exact followAux_starts_magnet net maxHops url' 0 mg hrun
      constructor
      · rw [Jackett.resolveComplete]
        intro u m hm
        simp only [] at hm
        rcases lookupA_setA_cases st.cache url u m0 _ hm with h | h
        · exact hval m h.symm
        · exact hinv u m h
      · rw [Prowlarr.resolveComplete]
        intro u m hm
        simp only [] at hm
        rcases lookupA_setA_cases st.cache url u m0 _ hm with h | h
        · exact hval m h.symm
        · exact hinv u m h
    · have hout : runToOutcome (followRedirectsToMagnet net url' maxHops) msg
          = .thrown msg := by
        rw [runToOutcome, hrun]
      rw [hout]
      constructor
      · rw [Jackett.resolveComplete]
        by_cases ht : Jackett.isTimeoutMsg msg = true
        · rw [if_pos ht]
          intro u m hm
          exact hinv u m hm
        · rw [if_neg ht]
          intro u m hm
          simp only [] at hm
          rcases lookupA_setA_cases st.cache url u none _ hm with h | h
          · cases h
          · exact hinv u m h
      · rw [Prowlarr.resolveComplete]
        intro u m hm
        simp only [] at hm
        rcases lookupA_setA_cases st.cache url u none _ hm with h | h
        · cases h
        · exact hinv u m h

/-- The witness network for C10: one redirect straight to a magnet. -/
def c10net (u : Str) : Option HttpRes :=
  if u = str "http://host/dl" then
    some ⟨302, some (str "magnet:?xt=urn:btih:w10"), none, []⟩
  else none

/-- Witness for C10 at a concrete network. -/
theorem c10_witness :
    (str "magnet:").isPrefixOf (str "magnet:?xt=urn:btih:w10") = true :=
  c10_returned_magnets_have_scheme.1 c10net (str "http://host/dl") 12
    (str "magnet:?xt=urn:btih:w10") (by decide)

/-! ### Coalescing and caching claims -/

/-- A fresh Jackett call launches and registers itself in-flight. -/
theorem jackett_fresh_call (st : ResolverState) (url : Str)
    (h1 : lookupA st.cache url = none) (h2 : st.inFlight.contains url = false) :
    Jackett.resolveDownloadUrlToMagnet st url
      = (.launched, ⟨st.cache, url :: st.inFlight, st.started + 1⟩) := by
  rw [Jackett.resolveDownloadUrlToMagnet, h1]
  simp [h2]
  simpa using h2

/-- While in-flight and uncached, every further Jackett call joins and
changes nothing. -/
theorem jackett_join_iter (st : ResolverState) (url : Str)
    (h1 : lookupA st.cache url = none) (h2 : st.inFlight.contains url = true) :
    ∀ n, iterCalls Jackett.resolveDownloadUrlToMagnet n st url
      = (List.replicate n .joined, st) := by
  intro n
  induction n with
  | zero => rfl
  | succ n ih =>
    have hcall : Jackett.resolveDownloadUrlToMagnet st url = (.joined, st) := by
      rw [Jackett.resolveDownloadUrlToMagnet, h1]
      simp [h2]
      simpa using h2
    rw [iterCalls]
    simp [hcall, ih, List.replicate]

/-- Uncached Prowlarr calls each launch a resolution of their own. -/
theorem prowlarr_iter (st : ResolverState) (url : Str)
    (h1 : lookupA st.cache url = none) :
    ∀ n, iterCalls Prowlarr.resolveDownloadUrlToMagnet n st url
      = (List.replicate n .launched,
         ⟨st.cache, st.inFlight, st.started + n⟩) := by
  intro n
  induction n generalizing st with
  | zero =>
    rw [iterCalls]
    cases st
    rfl
  | succ n ih =>
    have hcall : Prowlarr.resolveDownloadUrlToMagnet st url
        = (.launched, ⟨st.cache, st.inFlight, st.started + 1⟩) := by
      rw [Prowlarr.resolveDownloadUrlToMagnet, h1]
    rw [iterCalls]
    simp only [hcall, ih ⟨st.cache, st.inFlight, st.started + 1⟩ h1, List.replicate]
    have harith : st.started + 1 + n = st.started + (n + 1) := by omega
    rw [harith]

/-- C2 counterexample: two concurrent Prowlarr callers for an uncached
URL start two underlying resolutions, not one. -/
theorem c2_counterexample_prowlarr_no_coalescing :
    (iterCalls Prowlarr.resolveDownloadUrlToMagnet 2 ⟨[], [], 0⟩
        (str "http://indexer/download?id=1")).2.started = 2
    ∧ ¬(iterCalls Prowlarr.resolveDownloadUrlToMagnet 2 ⟨[], [], 0⟩
        (str "http://indexer/download?id=1")).2.started = 1
    ∧ (iterCalls Prowlarr.resolveDownloadUrlToMagnet 2 ⟨[], [], 0⟩
        (str "http://indexer/download?id=1")).1
        = [CallStep.launched, CallStep.launched] := by
  refine ⟨by decide, by decide, by decide⟩

/-- C2 amended: "If N callers concurrently invoke the cached resolution
operation with the same URL while no cache entry exists, exactly one
underlying resolution is started and every later caller joins it —
for the Jackett resolver; the Prowlarr resolver has no in-flight map
and starts one resolution per concurrent caller."  The Jackett part:
the first of `n + 1` serialized call prefixes launches (incrementing
the started-resolutions counter by exactly one) and the remaining `n`
join the registered in-flight computation, so all callers share its
single outcome.  The Prowlarr part: `n` callers launch `n`
resolutions. -/
theorem c2_concurrent_coalescing :
    (∀ (st : ResolverState) (url : Str) (n : Nat),
      lookupA st.cache url = none → st.inFlight.contains url = false →
      iterCalls Jackett.resolveDownloadUrlToMagnet (n + 1) st url
        = (CallStep.launched :: List.replicate n CallStep.joined,
           ⟨st.cache, url :: st.inFlight, st.started + 1⟩))
    ∧ (∀ (st : ResolverState) (url : Str) (n : Nat),
      lookupA st.cache url = none →
      iterCalls Prowlarr.resolveDownloadUrlToMagnet n st url
        = (List.replicate n .launched,
           ⟨st.cache, st.inFlight, st.started + n⟩)) := by
  constructor
  · intro st url n h1 h2
    rw [iterCalls]
    have hfirst := jackett_fresh_call st url h1 h2
    have hjoin := jackett_join_iter ⟨st.cache, url :: st.inFlight, st.started + 1⟩ url h1
      (by simp [List.contains_cons]) n
    simp [hfirst, hjoin]
  · intro st url n h1
    exact prowlarr_iter st url h1 n

/-- Witness for C2: three Jackett callers, one launch, two joins; two
Prowlarr callers, two launches. -/
theorem c2_witness :
    iterCalls Jackett.resolveDownloadUrlToMagnet 3 ⟨[], [], 0⟩ (str "u")
      = ([CallStep.launched, CallStep.joined, CallStep.joined], ⟨[], [str "u"], 1⟩)
    ∧ iterCalls Prowlarr.resolveDownloadUrlToMagnet 2 ⟨[], [], 5⟩ (str "u")
      = ([CallStep.launched, CallStep.launched], ⟨[], [], 7⟩) := by
  constructor
  · have h := c2_concurrent_coalescing.1 ⟨[], [], 0⟩ (str "u") 2 (by decide) (by decide)
    simpa using h
  · have h := c2_concurrent_coalescing.2 ⟨[], [], 5⟩ (str "u") 2 (by decide)
    simpa using h

/-- C3 counterexample: after a Prowlarr resolution aborts (the
rejection message of Node's abort, "This operation was aborted"), the
catch handler caches `null`, so a cache entry exists and the next call
returns the cached `null` instead of a fresh network attempt. -/
theorem c3_counterexample_prowlarr_caches_timeout :
    Jackett.isTimeoutMsg (str "This operation was aborted") = true
    ∧ lookupA (Prowlarr.resolveComplete
        (Prowlarr.resolveDownloadUrlToMagnet ⟨[], [], 0⟩ (str "http://p/download?1")).2
        (str "http://p/download?1")
        (.thrown (str "This operation was aborted"))).cache
        (str "http://p/download?1") = some none
    ∧ (Prowlarr.resolveDownloadUrlToMagnet
        (Prowlarr.resolveComplete
          (Prowlarr.resolveDownloadUrlToMagnet ⟨[], [], 0⟩ (str "http://p/download?1")).2
          (str "http://p/download?1")
          (.thrown (str "This operation was aborted")))
        (str "http://p/download?1")).1 = .cacheHit none := by
  refine ⟨by decide, by decide, by decide⟩

/-- C3 amended: "When a resolution attempt ends in a timeout/abort,
the Jackett resolver stores no cache entry for that URL, so a
subsequent call performs a fresh network attempt; the Prowlarr
resolver instead caches `null` on every error including timeout/abort,
so the subsequent call returns the cached `null`."  The abortion is a
rejection whose message passes the resolver's timeout test. -/
theorem c3_timeout_not_cached :
    (∀ (st : ResolverState) (url msg : Str),
      lookupA st.cache url = none → st.inFlight.contains url = false →
      Jackett.isTimeoutMsg msg = true →
      lookupA (Jackett.resolveComplete
          (Jackett.resolveDownloadUrlToMagnet st url).2 url (.thrown msg)).cache url = none
      ∧ Jackett.resolveDownloadUrlToMagnet
          (Jackett.resolveComplete
            (Jackett.resolveDownloadUrlToMagnet st url).2 url (.thrown msg)) url
        = (.launched, ⟨st.cache, url :: st.inFlight, st.started + 2⟩))
    ∧ (∀ (st : ResolverState) (url msg : Str),
      lookupA st.cache url = none →
      lookupA (Prowlarr.resolveComplete
          (Prowlarr.resolveDownloadUrlToMagnet st url).2 url (.thrown msg)).cache url
        = some none
      ∧ (Prowlarr.resolveDownloadUrlToMagnet
          (Prowlarr.resolveComplete
            (Prowlarr.resolveDownloadUrlToMagnet st url).2 url (.thrown msg)) url).1
        = .cacheHit none) := by
  constructor
  · intro st url msg h1 h2 ht
    have hfirst := jackett_fresh_call st url h1 h2
    have hcomp : Jackett.resolveComplete
        (Jackett.resolveDownloadUrlToMagnet st url).2 url (.thrown msg)
        = ⟨st.cache, st.inFlight, st.started + 1⟩ := by
      rw [hfirst, Jackett.resolveComplete]
      rw [if_pos ht]
      simp
    rw [hcomp]
    refine ⟨h1, ?_⟩
    have := jackett_fresh_call ⟨st.cache, st.inFlight, st.started + 1⟩ url h1 h2
    rw [this]
  · intro st url msg h1
    have hfirst : Prowlarr.resolveDownloadUrlToMagnet st url
        = (.launched, ⟨st.cache, st.inFlight, st.started + 1⟩) := by
      rw [Prowlarr.resolveDownloadUrlToMagnet, h1]
    have hcomp : Prowlarr.resolveComplete
        (Prowlarr.resolveDownloadUrlToMagnet st url).2 url (.thrown msg)
        = ⟨setA st.cache url none, st.inFlight, st.started + 1⟩ := by
      rw [hfirst, Prowlarr.resolveComplete]
    rw [hcomp]
    refine ⟨lookupA_setA_self _ _ _, ?_⟩
    rw [Prowlarr.resolveDownloadUrlToMagnet]
    simp only [lookupA_setA_self]

/-- Witness for C3 at a concrete state and the abort message. -/
theorem c3_witness :
    lookupA (Jackett.resolveComplete
        (Jackett.resolveDownloadUrlToMagnet ⟨[], [], 0⟩ (str "u")).2 (str "u")
        (.thrown (str "This operation was aborted"))).cache (str "u") = none
    ∧ lookupA (Prowlarr.resolveComplete
        (Prowlarr.resolveDownloadUrlToMagnet ⟨[], [], 0⟩ (str "u")).2 (str "u")
        (.thrown (str "This operation was aborted"))).cache (str "u") = some none := by
  constructor
  · exact (c3_timeout_not_cached.1 ⟨[], [], 0⟩ (str "u")
      (str "This operation was aborted") (by decide) (by decide) (by decide)).1
  · exact (c3_timeout_not_cached.2 ⟨[], [], 0⟩ (str "u")
      (str "This operation was aborted") (by decide)).1

/-- C5: "A cache hit — including a cached null recorded for a
definitive failure — makes resolveDownloadUrlToMagnet return
immediately with zero network activity; in particular, after a
definitive negative outcome is cached, a second call for the same URL
within the TTL window performs no network request and returns null."
Confirmed for both providers: a hit returns the cached value with the
state (in particular the started-resolutions counter) unchanged, and
after a fulfilled-`null` completion the next call is a `null` cache
hit.  ("Within the TTL window" is the state in which the entry is
still present; LRU-cache eviction is outside the model.) -/
theorem c5_cache_hit_zero_network :
    (∀ (st : ResolverState) (url : Str) (v : Option Str),
      lookupA st.cache url = some v →
      Jackett.resolveDownloadUrlToMagnet st url = (.cacheHit v, st)
      ∧ Prowlarr.resolveDownloadUrlToMagnet st url = (.cacheHit v, st))
    ∧ (∀ (st : ResolverState) (url : Str),
      Jackett.resolveDownloadUrlToMagnet
          (Jackett.resolveComplete st url (.value none)) url
        = (.cacheHit none, Jackett.resolveComplete st url (.value none))
      ∧ Prowlarr.resolveDownloadUrlToMagnet
          (Prowlarr.resolveComplete st url (.value none)) url
        = (.cacheHit none, Prowlarr.resolveComplete st url (.value none))) := by
  constructor
  · intro st url v h
    constructor
    · rw [Jackett.resolveDownloadUrlToMagnet, h]
    · rw [Prowlarr.resolveDownloadUrlToMagnet, h]
  · intro st url
    constructor
    · rw [Jackett.resolveComplete]
      rw [Jackett.resolveDownloadUrlToMagnet]
      simp only [lookupA_setA_self]
    · rw [Prowlarr.resolveComplete]
      rw [Prowlarr.resolveDownloadUrlToMagnet]
      simp only [lookupA_setA_self]

/-- Witness for C5: a cached magnet and a cached null both hit. -/
theorem c5_witness :
    Jackett.resolveDownloadUrlToMagnet
        ⟨[(str "u", some (str "magnet:?x"))], [], 3⟩ (str "u")
      = (.cacheHit (some (str "magnet:?x")), ⟨[(str "u", some (str "magnet:?x"))], [], 3⟩)
    ∧ Prowlarr.resolveDownloadUrlToMagnet ⟨[(str "u", none)], [], 3⟩ (str "u")
      = (.cacheHit none, ⟨[(str "u", none)], [], 3⟩) := by
  constructor
  · exact (c5_cache_hit_zero_network.1 ⟨[(str "u", some (str "magnet:?x"))], [], 3⟩
      (str "u") (some (str "magnet:?x")) (by decide)).1
  · exact (c5_cache_hit_zero_network.1 ⟨[(str "u", none)], [], 3⟩
      (str "u") none (by decide)).2

/-- Two raw hits with identical `normTitle` and `size` and seeders 5
and 50 (the claim's concrete instance). -/
def c8low : SearchResult :=
  ⟨str "Show S01", 734003200, some 5, some 1, str "t1", str "", none, none, str "show s01"⟩

/-- The 50-seeder twin of `c8low`. -/
def c8high : SearchResult :=
  ⟨str "Show S01", 734003200, some 50, some 2, str "t2", str "", none, none, str "show s01"⟩

/-- C8: "For every list of raw results, the aggregation step groups
entries by the pair (normalizedTitle, sizeBytes), keeps within each
group the member with the strictly highest seeder count (ties broken
in favor of the first-seen member), and returns the deduplicated set
sorted descending by seeder count; in particular, two hits with equal
normalized title and size and seeders 5 and 50 yield exactly one
output entry, with seeders 50."  Confirmed: the output is sorted
descending by `(seeders ?? 0)` and is a permutation of the dedup map's
values; the map's entry for each key is the group fold, whose survivor
belongs to the group, attains its maximum seeder count, and strictly
exceeds every earlier group member (first-seen tie-break); every input
row's key is represented; and the claim's 5-vs-50 instance yields
exactly the 50-seeder entry. -/
theorem c8_aggregation_dedupes_and_sorts :
    (∀ rs : List SearchResult, List.Pairwise seedOrder (aggregateResults rs))
    ∧ (∀ rs : List SearchResult,
        (aggregateResults rs).Perm ((dedupeResults rs).map Prod.snd))
    ∧ (∀ (rs : List SearchResult) (k : Str),
        lookupA (dedupeResults rs) k = groupBest rs k)
    ∧ (∀ (rs : List SearchResult) (k : Str) (rep : SearchResult),
        groupBest rs k = some rep →
        ∃ g1 g2, rs.filter (fun r => decide (dedupKey r = k)) = g1 ++ rep :: g2
          ∧ (∀ x ∈ g1, seedersD x < seedersD rep)
          ∧ (∀ x ∈ g2, seedersD x ≤ seedersD rep))
    ∧ (∀ (rs : List SearchResult) (r : SearchResult), r ∈ rs →
        ∃ rep, lookupA (dedupeResults rs) (dedupKey r) = some rep)
    ∧ aggregateResults [c8low, c8high] = [c8high] := by
  refine ⟨?_, ?_, ?_, ?_, ?_, by decide⟩
  · intro rs
    exact List.sorted_insertionSort seedOrder _
  · intro rs
    exact List.perm_insertionSort seedOrder _
  · intro rs k
    exact lookupA_dedupe rs k
  · intro rs k rep h
    exact groupFold_first_max _ rep h
  · intro rs r hr
    rw [lookupA_dedupe]
    rcases hg : groupBest rs (dedupKey r) with _ | rep
    · exfalso
      rw [groupBest] at hg
      have : rs.filter (fun x => decide (dedupKey x = dedupKey r)) = [] :=
        (groupFold_none_iff _).mp hg
      have hmem : r ∈ rs.filter (fun x => decide (dedupKey x = dedupKey r)) := by
        rw [List.mem_filter]
        exact ⟨hr, by simp⟩
      rw [this] at hmem
      cases hmem
    · exact ⟨rep, rfl⟩

/-- Witness for C8 (the coverage conjunct at a concrete list). -/
theorem c8_witness :
    ∃ rep, lookupA (dedupeResults [c8low, c8high]) (dedupKey c8low) = some rep :=
  c8_aggregation_dedupes_and_sorts.2.2.2.2.1 [c8low, c8high] c8low (by simp)

/-- The first title of the C9 instance. -/
def c9title1 : Str := str "Show.S01E01.1080p [RELEASE-GROUP]"

/-- The second title of the C9 instance. -/
def c9title2 : Str := str "show s01e01 1080p"

/-- A search row carrying a given title (the other fields are
irrelevant to normalization). -/
def c9row (t : Str) : SearchResult :=
  ⟨t, 0, none, none, str "", str "", none, none, str ""⟩

/-- C9 counterexample: `normalizeResult` does not convert dots to
spaces, so "Show.S01E01.1080p [RELEASE-GROUP]" normalizes to
"show.s01e01.1080p" while "show s01e01 1080p" normalizes to itself —
the two `normTitle`s differ, contradicting the claim's instance. -/
theorem c9_counterexample_dots_not_collapsed :
    (normalizeResult (c9row c9title1)).normTitle = str "show.s01e01.1080p"
    ∧ (normalizeResult (c9row c9title2)).normTitle = str "show s01e01 1080p"
    ∧ ¬(normalizeResult (c9row c9title1)).normTitle
        = (normalizeResult (c9row c9title2)).normTitle := by
  refine ⟨by decide, by decide, by decide⟩

/-- C9 amended: "normalizedTitle is a pure deterministic function of
title — lowercasing, whitespace-collapsing, and stripping
bracketed/parenthesized annotations — but dots are not whitespace, so
'Show.S01E01.1080p [RELEASE-GROUP]' normalizes to 'show.s01e01.1080p'
and 'show s01e01 1080p' to itself, and the two differ." -/
theorem c9_normalize_title :
    (∀ r : SearchResult, (normalizeResult r).normTitle = normTitleOf r.title
      ∧ (normalizeResult r).title = r.title)
    ∧ normTitleOf c9title1 = str "show.s01e01.1080p"
    ∧ normTitleOf c9title2 = str "show s01e01 1080p"
    ∧ ¬normTitleOf c9title1 = normTitleOf c9title2 :=
  ⟨fun _ => ⟨rfl, rfl⟩, by decide, by decide, by decide⟩
